import Mathlib

/-!
# Marigraph — verification of the IPC framing, surface analytics and renderer

A shallow embedding in Lean 4 of the parts of the `marigraph` code base that
the checked properties concern:

* the binary frame codec and the streaming `FrameReader`
  (`src/ipc/frame.ts`),
* surface construction and the `minmax` vector scan
  (`src/data/surface.ts`, `src/data/vec.ts`),
* arbitrage detection and enforcement (`src/surface/arbitrage.ts`),
* bilinear interpolation and its binary search (`src/surface/interpolate.ts`),
* projection and risk metrics (`src/render/project.ts`),
* surface serialization (`src/ipc/serialize.ts`).

Conventions.  JavaScript byte buffers (`Uint8Array`) are `List Nat` whose
entries are below 256; writes that truncate (`setUint8`, `setUint32`, …)
take the value modulo the appropriate power of two, exactly as `DataView`
does.  JavaScript 64-bit floats are embedded as exact rationals `ℚ` where the
code is purely arithmetical, and as reals `ℝ` where it calls transcendental
functions (`Math.cos`, `Math.sqrt`, …); `Math.sqrt` and `Math.log` occurring
inside otherwise-rational code are abstracted as function parameters so the
embedding stays executable.  Display-only strings built with `toFixed`
(the `description` field of violations) carry no information used by any
computation and are omitted from the records.
-/

namespace Marigraph

/-! ## Byte-level primitives (DataView little-endian accessors) -/

/-- Little-endian `u32` write, as `DataView.setUint32(…, true)`: the value is
reduced modulo `2^32` and stored as four bytes, least significant first. -/
def u32le (n : Nat) : List Nat :=
  [n % 2 ^ 32 % 256, n % 2 ^ 32 / 2 ^ 8 % 256, n % 2 ^ 32 / 2 ^ 16 % 256,
    n % 2 ^ 32 / 2 ^ 24 % 256]

/-- Little-endian `u16` write, as `DataView.setUint16(…, true)`. -/
def u16le (n : Nat) : List Nat :=
  [n % 2 ^ 16 % 256, n % 2 ^ 16 / 2 ^ 8 % 256]

/-- Little-endian `u32` read of bytes `i, i+1, i+2, i+3` of a buffer, as
`DataView.getUint32(i, true)`. -/
def readU32 (data : List Nat) (i : Nat) : Nat :=
  data.getD i 0 + 2 ^ 8 * data.getD (i + 1) 0 + 2 ^ 16 * data.getD (i + 2) 0 +
    2 ^ 24 * data.getD (i + 3) 0

/-- Little-endian `u16` read, as `DataView.getUint16(i, true)`. -/
def readU16 (data : List Nat) (i : Nat) : Nat :=
  data.getD i 0 + 2 ^ 8 * data.getD (i + 1) 0

/-! ## Frame codec (`src/ipc/frame.ts`) -/

/-- The `FRAME_HEADER_SIZE` from `src/ipc/protocol.ts`. -/
def FRAME_HEADER_SIZE : Nat := 8

/-- The 8-byte frame header `[length: u32][type: u8][flags: u8][seq: u16]`
(`FrameHeader` in `src/ipc/protocol.ts`). -/
structure FrameHeader where
  length : Nat
  type : Nat
  flags : Nat
  seq : Nat
  deriving DecidableEq, Repr

/-- The `encodeFrame(type, payload, flags, seq)`: header bytes followed by the
payload.  `setUint8`/`setUint16` truncate their argument like `DataView`. -/
def encodeFrame (type : Nat) (payload : List Nat) (flags : Nat := 0)
    (seq : Nat := 0) : List Nat :=
  u32le payload.length ++ [type % 256, flags % 256] ++ u16le seq ++ payload

/-- The `decodeHeader(data)`: `null` when fewer than `FRAME_HEADER_SIZE` bytes are
available, otherwise the four header fields read at offsets 0, 4, 5, 6. -/
def decodeHeader (data : List Nat) : Option FrameHeader :=
  if data.length < FRAME_HEADER_SIZE then none
  else some ⟨readU32 data 0, data.getD 4 0, data.getD 5 0, readU16 data 6⟩

/-- The `decodeFrame(data)`: decode the header, then slice the payload
`data.slice(8, 8 + header.length)`; `null` when the frame is incomplete. -/
def decodeFrame (data : List Nat) : Option (FrameHeader × List Nat) :=
  match decodeHeader data with
  | none => none
  | some header =>
    if data.length < FRAME_HEADER_SIZE + header.length then none
    else some (header, (data.drop FRAME_HEADER_SIZE).take header.length)

/-! ## Streaming reader (`FrameReader` in `src/ipc/frame.ts`)

The reader's state is its internal byte buffer.  `append` concatenates;
`read` mirrors `FrameReader.read`: it returns the next complete frame
together with the buffer with that frame's bytes removed, and `none` (the
state untouched) when the buffer holds less than a complete frame. -/

/-- The `FrameReader.append`: the internal buffer grows by the incoming bytes. -/
def readerAppend (buffer data : List Nat) : List Nat := buffer ++ data

/-- The `FrameReader.read` as a state transformer on the buffer: `none` when no
complete frame is buffered, otherwise the frame and the remaining buffer. -/
def readerRead (buffer : List Nat) :
    Option ((FrameHeader × List Nat) × List Nat) :=
  if buffer.length < FRAME_HEADER_SIZE then none
  else
    match decodeHeader buffer with
    | none => none
    | some header =>
      if buffer.length < FRAME_HEADER_SIZE + header.length then none
      else
        some ((header, (buffer.drop FRAME_HEADER_SIZE).take header.length),
          buffer.drop (FRAME_HEADER_SIZE + header.length))

/-- The `FrameReader.readAll`: repeatedly `read` until `null`, collecting the
frames; returns the drained frames and the final buffer. -/
def readerReadAll (buffer : List Nat) :
    List (FrameHeader × List Nat) × List Nat :=
  match h : readerRead buffer with
  | none => ([], buffer)
  | some (f, rest) =>
    let (fs, final) := readerReadAll rest
    (f :: fs, final)
termination_by buffer.length
decreasing_by
  unfold readerRead at h
  split at h
  · exact absurd h (by simp)
  · rename_i hlen
    split at h
    · exact absurd h (by simp)
    · split at h
      · exact absurd h (by simp)
      · rename_i header hcomplete
        obtain ⟨-, hrest⟩ := Prod.mk.injEq .. ▸ Option.some.injEq .. ▸ h
        subst hrest
        simp only [List.length_drop, FRAME_HEADER_SIZE] at *
        omega

/-- Feeding a sequence of chunks: each chunk is appended and the reader is
drained with `readAll`; the frames extracted across all the appends are
collected in order.  This models a caller doing
`reader.append(chunk); reader.readAll()` per chunk. -/
def readerFeed (buffer : List Nat) :
    List (List Nat) → List (FrameHeader × List Nat) × List Nat
  | [] => ([], buffer)
  | chunk :: chunks =>
    let (fs, buffer') := readerReadAll (readerAppend buffer chunk)
    let (fs', final) := readerFeed buffer' chunks
    (fs ++ fs', final)

/-- A frame as handed to the encoder: type, flags, seq and payload. -/
structure FrameInput where
  type : Nat
  flags : Nat
  seq : Nat
  payload : List Nat
  deriving DecidableEq, Repr

/-- Field ranges under which the 8-byte header stores the fields exactly. -/
def FrameInput.InRange (f : FrameInput) : Prop :=
  f.type ≤ 255 ∧ f.flags ≤ 255 ∧ f.seq ≤ 65535 ∧ f.payload.length < 2 ^ 32

/-- The header that `decodeFrame ∘ encodeFrame` reconstructs. -/
def FrameInput.header (f : FrameInput) : FrameHeader :=
  ⟨f.payload.length, f.type, f.flags, f.seq⟩

/-- The encoded byte stream of a list of frames, concatenated in order. -/
def encodeAll (fs : List FrameInput) : List Nat :=
  (fs.map fun f => encodeFrame f.type f.payload f.flags f.seq).flatten

/-- The `FrameReader.read` including its effect on the reader state: on `null`
the buffer is untouched, on success the frame's bytes are removed. -/
def readerReadState (buffer : List Nat) :
    Option (FrameHeader × List Nat) × List Nat :=
  match readerRead buffer with
  | none => (none, buffer)
  | some (f, buffer') => (some f, buffer')

/-- The pair (`header`, payload) that the reader hands back for a frame. -/
def FrameInput.asFrame (f : FrameInput) : FrameHeader × List Nat :=
  (f.header, f.payload)

/-! ## Vectors and surfaces (`src/data/vec.ts`, `src/data/surface.ts`)

`Float64Array` values are embedded as `List ℚ`.  `minmax` starts its scan
from `(Infinity, -Infinity)`; those two sentinel values live above and below
every finite number, so the accumulator type is `ℚ` extended with a top and
a bottom element. -/

/-- A JavaScript number extended with the `Infinity` / `-Infinity` sentinels
used by the `minmax` scan. -/
abbrev XQ : Type := WithBot (WithTop ℚ)

/-- A finite number, as an extended number. -/
def XQ.fin (q : ℚ) : XQ := ((q : WithTop ℚ) : XQ)

/-- The loop of `minmax(v)`:
`if (val < lo) lo = val; if (val > hi) hi = val`. -/
def minmaxGo : List ℚ → XQ × XQ → XQ × XQ
  | [], acc => acc
  | val :: rest, (lo, hi) =>
    minmaxGo rest (if XQ.fin val < lo then XQ.fin val else lo,
      if hi < XQ.fin val then XQ.fin val else hi)

/-- The `minmax(v)` from `src/data/vec.ts`: single-pass min/max scan starting at
`(Infinity, -Infinity)`. -/
def minmax (v : List ℚ) : XQ × XQ := minmaxGo v (⊤, ⊥)

/-- The `SurfaceMeta` from `src/data/surface.ts`; the domains are as `minmax`
returns them.  `timestamp` is the `Date.now()` value at creation. -/
structure SurfaceMeta where
  xLabel : String
  yLabel : String
  zLabel : String
  xDomain : XQ × XQ
  yDomain : XQ × XQ
  zDomain : XQ × XQ
  timestamp : ℚ
  deriving DecidableEq, Repr

/-- The `Surface<Vec64>` from `src/data/surface.ts`: row-major `z` with
`z[xi][yi] = z[xi * ny + yi]`. -/
structure Surface where
  x : List ℚ
  y : List ℚ
  z : List ℚ
  nx : Nat
  ny : Nat
  meta : SurfaceMeta
  deriving DecidableEq, Repr

/-- Optional axis labels, as the `labels` argument of `createSurface`. -/
structure SurfaceLabels where
  x : Option String := none
  y : Option String := none
  z : Option String := none
  deriving DecidableEq, Repr

/-- The `createSurface(x, y, z, labels)`: throws when `z.length !== nx * ny`,
otherwise builds the surface with `minmax` domains.  The impure `Date.now()`
is passed in as `now`. -/
def createSurface (x y z : List ℚ) (labels : SurfaceLabels) (now : ℚ) :
    Except String Surface :=
  let nx := x.length
  let ny := y.length
  if z.length ≠ nx * ny then
    .error "z length does not match nx*ny"
  else
    .ok ⟨x, y, z, nx, ny,
      ⟨labels.x.getD "X", labels.y.getD "Y", labels.z.getD "Z",
        minmax x, minmax y, minmax z, now⟩⟩

/-- The pair `p` is the min/max of the values in `v`: both components are
attained in `v` and they bound every element below/above. -/
def IsMinMax (v : List ℚ) (p : XQ × XQ) : Prop :=
  (∃ a ∈ v, p.1 = XQ.fin a) ∧ (∀ a ∈ v, p.1 ≤ XQ.fin a) ∧
    (∃ a ∈ v, p.2 = XQ.fin a) ∧ (∀ a ∈ v, XQ.fin a ≤ p.2)

/-! ## Arbitrage detection (`src/surface/arbitrage.ts`)

`Math.sqrt` and `Math.log` are abstracted as function parameters (`sqrtFn`,
`logFn`) so that the rational embedding stays executable; no property below
depends on their values.  The display-only `description` string of a
violation is omitted. -/

/-- The `ArbitrageViolation.type`. -/
inductive ViolType where
  | calendar
  | butterfly
  | vertical
  deriving DecidableEq, Repr

/-- The `ArbitrageViolation.severity`. -/
inductive Severity where
  | minor
  | moderate
  | severe
  deriving DecidableEq, Repr

/-- The `ArbitrageViolation.location`; `x2` is present for calendar violations
only. -/
structure ViolLocation where
  x1 : ℚ
  x2 : Option ℚ
  y : ℚ
  deriving DecidableEq, Repr

/-- The `ArbitrageViolation` (without the display `description`). -/
structure Violation where
  type : ViolType
  severity : Severity
  location : ViolLocation
  violation : ℚ
  deriving DecidableEq, Repr

/-- The severity ternary of `checkCalendarArbitrage`:
`violation > 0.01 ? 'severe' : violation > 0.005 ? 'moderate' : 'minor'`. -/
def calendarSeverity (violation : ℚ) : Severity :=
  if violation > 0.01 then .severe
  else if violation > 0.005 then .moderate else .minor

/-- The total variance `w = iv² · T` read at grid cell `(i, j)` of a
surface whose `x` axis holds expiries. -/
def calendarW (s : Surface) (i j : Nat) : ℚ :=
  s.z.getD (i * s.ny + j) 0 * s.z.getD (i * s.ny + j) 0 * s.x.getD i 0

/-- The `checkCalendarArbitrage(surface, tolerance)`: for every strike column and
consecutive expiry pair, flag `w2 < w1 - tolerance` where `w = iv² · T`. -/
def checkCalendarArbitrage (s : Surface) (tolerance : ℚ := 0.001) :
    List Violation :=
  (List.range s.ny).flatMap fun j =>
    (List.range (s.nx - 1)).filterMap fun i =>
      let T1 := s.x.getD i 0
      let T2 := s.x.getD (i + 1) 0
      let iv1 := s.z.getD (i * s.ny + j) 0
      let iv2 := s.z.getD ((i + 1) * s.ny + j) 0
      let w1 := iv1 * iv1 * T1
      let w2 := iv2 * iv2 * T2
      if w2 < w1 - tolerance then
        let violation := w1 - w2
        some ⟨.calendar, calendarSeverity violation,
          ⟨T1, some T2, s.y.getD j 0⟩, violation⟩
      else none

/-- The `checkButterflyArbitrage(surface, tolerance)`: for every expiry and
interior strike, flag non-convexity `(ivL + ivR)/2 - ivM < -tolerance`. -/
def checkButterflyArbitrage (s : Surface) (tolerance : ℚ := 0.001) :
    List Violation :=
  (List.range s.nx).flatMap fun i =>
    (List.range' 1 (s.ny - 1 - 1)).filterMap fun j =>
      let T := s.x.getD i 0
      let ivLeft := s.z.getD (i * s.ny + (j - 1)) 0
      let ivMid := s.z.getD (i * s.ny + j) 0
      let ivRight := s.z.getD (i * s.ny + (j + 1)) 0
      let butterfly := (ivLeft + ivRight) / 2 - ivMid
      if butterfly < -tolerance then
        let violation := |butterfly|
        some ⟨.butterfly,
          if violation > 0.02 then .severe
          else if violation > 0.01 then .moderate else .minor,
          ⟨T, none, s.y.getD j 0⟩, violation⟩
      else none

/-- The `checkVerticalArbitrage(surface, forward, tolerance)`: bound the slope of
total variance in log-moneyness by `slopeLimit = 2.0` (the `tolerance`
parameter is accepted but unused by the source). -/
def checkVerticalArbitrage (logFn : ℚ → ℚ) (s : Surface) (forward : ℚ)
    (tolerance : ℚ := 0.001) : List Violation :=
  (List.range s.nx).flatMap fun i =>
    (List.range (s.ny - 1)).filterMap fun j =>
      let T := s.x.getD i 0
      let K1 := s.y.getD j 0
      let K2 := s.y.getD (j + 1) 0
      let iv1 := s.z.getD (i * s.ny + j) 0
      let iv2 := s.z.getD (i * s.ny + (j + 1)) 0
      let k1 := logFn (K1 / forward)
      let k2 := logFn (K2 / forward)
      let w1 := iv1 * iv1 * T
      let w2 := iv2 * iv2 * T
      let dw_dk := (w2 - w1) / (k2 - k1)
      let slopeLimit : ℚ := 2.0
      if |dw_dk| > slopeLimit then
        let violation := |dw_dk| - slopeLimit
        some ⟨.vertical,
          if violation > 1.0 then .severe
          else if violation > 0.5 then .moderate else .minor,
          ⟨T, none, (K1 + K2) / 2⟩, violation⟩
      else none

/-- The `ArbitrageCheckResult.summary`. -/
structure ArbSummary where
  calendar : Nat
  butterfly : Nat
  vertical : Nat
  total : Nat
  deriving DecidableEq, Repr

/-- The `ArbitrageCheckResult`. -/
structure ArbitrageCheckResult where
  arbitrageFree : Bool
  violations : List Violation
  summary : ArbSummary
  deriving DecidableEq, Repr

/-- The `checkAllArbitrage(surface, forward?, tolerance)`.  The vertical check
runs only when `forward` is present and truthy (a `0` forward is falsy in
JavaScript and skips the check). -/
def checkAllArbitrage (logFn : ℚ → ℚ) (s : Surface) (forward : Option ℚ)
    (tolerance : ℚ := 0.001) : ArbitrageCheckResult :=
  let calendarViolations := checkCalendarArbitrage s tolerance
  let butterflyViolations := checkButterflyArbitrage s tolerance
  let verticalViolations := match forward with
    | some f => if f ≠ 0 then checkVerticalArbitrage logFn s f tolerance
        else []
    | none => []
  let allViolations := calendarViolations ++ butterflyViolations ++
    verticalViolations
  ⟨allViolations.length = 0, allViolations,
    ⟨calendarViolations.length, butterflyViolations.length,
      verticalViolations.length, allViolations.length⟩⟩

/-- One calendar fix inside `enforceArbitrageFree`: find the strike column
and the expiry pair of the violation and nudge the far-dated point up by
`√(violation / T_far) / 2`. -/
def applyCalendarFix (sqrtFn : ℚ → ℚ) (cur : Surface) (v : Violation) :
    Surface :=
  match cur.y.findIdx? (fun yv => |yv - v.location.y| < 1e-6) with
  | none => cur
  | some j =>
    match (List.range (cur.nx - 1)).find? (fun i =>
        decide (|cur.x.getD i 0 - v.location.x1| < 1e-6) &&
          match v.location.x2 with
          | some t2 => decide (|cur.x.getD (i + 1) 0 - t2| < 1e-6)
          | none => false) with
    | none => cur
    | some i =>
      let idx := (i + 1) * cur.ny + j
      let adjustment := sqrtFn (v.violation / cur.x.getD (i + 1) 0) * 0.5
      { cur with z := cur.z.set idx (cur.z.getD idx 0 + adjustment) }

/-- One butterfly fix inside `enforceArbitrageFree`: replace the mid point
with the average of its two strike neighbours. -/
def applyButterflyFix (cur : Surface) (v : Violation) : Surface :=
  match cur.x.findIdx? (fun xv => |xv - v.location.x1| < 1e-6),
      cur.y.findIdx? (fun yv => |yv - v.location.y| < 1e-6) with
  | some i, some j =>
    if j = 0 ∨ j = cur.ny - 1 then cur
    else
      let left := cur.z.getD (i * cur.ny + (j - 1)) 0
      let right := cur.z.getD (i * cur.ny + (j + 1)) 0
      { cur with z := cur.z.set (i * cur.ny + j) ((left + right) / 2) }
  | _, _ => cur

/-- One correction round of `enforceArbitrageFree`: all calendar fixes in
violation order, then all butterfly fixes. -/
def correctionRound (sqrtFn : ℚ → ℚ) (cur : Surface) (vs : List Violation) :
    Surface :=
  let afterCalendar := (vs.filter (fun v => v.type = ViolType.calendar)).foldl
    (applyCalendarFix sqrtFn) cur
  (vs.filter (fun v => v.type = ViolType.butterfly)).foldl applyButterflyFix
    afterCalendar

/-- The iteration of `enforceArbitrageFree`: check, return early when
arbitrage-free, otherwise correct and continue, for at most `maxIterations`
rounds. -/
def enforceGo (sqrtFn logFn : ℚ → ℚ) (tolerance : ℚ) :
    Nat → Surface → Surface
  | 0, cur => cur
  | n + 1, cur =>
    let result := checkAllArbitrage logFn cur none tolerance
    if result.arbitrageFree then cur
    else enforceGo sqrtFn logFn tolerance n
      (correctionRound sqrtFn cur result.violations)

/-- The `enforceArbitrageFree(surface, maxIterations, tolerance)`. -/
def enforceArbitrageFree (sqrtFn logFn : ℚ → ℚ) (s : Surface)
    (maxIterations : Nat := 100) (tolerance : ℚ := 0.001) : Surface :=
  enforceGo sqrtFn logFn tolerance maxIterations s

/-- Whether `enforceArbitrageFree` returns through its in-loop early return,
i.e. before exhausting `maxIterations` correction rounds. -/
def enforceConverged (sqrtFn logFn : ℚ → ℚ) (tolerance : ℚ) :
    Nat → Surface → Bool
  | 0, _ => false
  | n + 1, cur =>
    let result := checkAllArbitrage logFn cur none tolerance
    if result.arbitrageFree then true
    else enforceConverged sqrtFn logFn tolerance n
      (correctionRound sqrtFn cur result.violations)

/-! ## Interpolation (`src/surface/interpolate.ts`)

Indices are embedded as `ℤ` because `findIndex` returns `-1` on empty input
and `n - 2` may be negative for `n < 2`; after the clamp in
`bilinearInterpolate` they are nonnegative and `toNat` recovers the array
offset. -/

/-- Element access `values[i]` on a `ℤ` index (negative or out-of-range
indices read as the JavaScript `undefined`, defaulted like every other
out-of-range read in this embedding). -/
def atI (values : List ℚ) (i : ℤ) : ℚ :=
  if 0 ≤ i then values.getD i.toNat 0 else 0

/-- The `while (lo < hi - 1)` binary-search loop of `findIndex`. -/
def findIndexGo (values : List ℚ) (target : ℚ) (lo hi : Nat) : Nat :=
  if lo + 1 < hi then
    let mid := (lo + hi) / 2
    if values.getD mid 0 ≤ target then findIndexGo values target mid hi
    else findIndexGo values target lo mid
  else lo
termination_by hi - lo
decreasing_by
  · omega
  · omega

/-- The `findIndex(values, target)` from `src/surface/interpolate.ts`: `-1` on
empty input, `0` at or below the first axis value, `n - 2` at or above the
last, otherwise the binary-search cell index. -/
def findIndex (values : List ℚ) (target : ℚ) : ℤ :=
  let n := values.length
  if n = 0 then -1
  else if target ≤ values.getD 0 0 then 0
  else if values.getD (n - 1) 0 ≤ target then (n : ℤ) - 2
  else (findIndexGo values target 0 (n - 1) : ℤ)

/-- The `lerp(a, b, t)`. -/
def lerp (a b t : ℚ) : ℚ := a + (b - a) * t

/-- The clamped grid cell `(x0, y0)` that `bilinearInterpolate` reads its
four corners from: `x0 = max(0, min(findIndex(x), nx - 2))` and likewise
for `y0`. -/
def bilinearCell (s : Surface) (x y : ℚ) : ℤ × ℤ :=
  (max 0 (min (findIndex s.x x) ((s.nx : ℤ) - 2)),
    max 0 (min (findIndex s.y y) ((s.ny : ℤ) - 2)))

/-- The `bilinearInterpolate(surface, x, y)`: blend the four corners of the
clamped cell by the normalized offsets `tx`, `ty`. -/
def bilinearInterpolate (s : Surface) (x y : ℚ) : ℚ :=
  let x0 := (bilinearCell s x y).1
  let x1 := x0 + 1
  let y0 := (bilinearCell s x y).2
  let y1 := y0 + 1
  let z00 := s.z.getD (x0 * s.ny + y0).toNat 0
  let z01 := s.z.getD (x0 * s.ny + y1).toNat 0
  let z10 := s.z.getD (x1 * s.ny + y0).toNat 0
  let z11 := s.z.getD (x1 * s.ny + y1).toNat 0
  let xRange := atI s.x x1 - atI s.x x0
  let yRange := atI s.y y1 - atI s.y y0
  let tx := if xRange ≠ 0 then (x - atI s.x x0) / xRange else 0
  let ty := if yRange ≠ 0 then (y - atI s.y y0) / yRange else 0
  let z0 := lerp z00 z01 ty
  let z1 := lerp z10 z11 ty
  lerp z0 z1 tx

/-! ## Projection (`src/render/project.ts`)

`Projection` is generic in the number type: `rotateProjection` and
`zoomProjection` are pure field arithmetic plus JavaScript `%` (truncated
remainder), so they are stated over any linear ordered field with a floor;
`project3D` calls `Math.cos`/`Math.sin` and lives over `ℝ`. -/

/-- The `Projection` from `src/render/project.ts`. -/
structure Projection (K : Type) where
  azimuth : K
  elevation : K
  zoom : K
  centerX : K
  centerY : K
  aspectRatio : K
  deriving DecidableEq, Repr

/-- The `Point3D`. -/
structure Point3D (K : Type) where
  x : K
  y : K
  z : K
  deriving DecidableEq, Repr

/-- The `Point2D` with its depth tag. -/
structure Point2D (K : Type) where
  x : K
  y : K
  depth : K
  deriving DecidableEq, Repr

/-- JavaScript truncation toward zero (the `q` in `a % b = a - b * q`). -/
def jsTrunc {K : Type} [LinearOrderedField K] [FloorRing K] (a : K) : ℤ :=
  if 0 ≤ a then ⌊a⌋ else ⌈a⌉

/-- The JavaScript `%` operator on finite numbers: remainder with the sign
of the dividend, `a % b = a - b * trunc(a / b)`. -/
def jsRem {K : Type} [LinearOrderedField K] [FloorRing K] (a b : K) : K :=
  a - b * (jsTrunc (a / b) : K)

/-- The `DEG2RAD`. -/
noncomputable def DEG2RAD : ℝ := Real.pi / 180

/-- The `project3D(p, proj)`: rotate about Z by azimuth, about X by elevation,
then project orthographically with the aspect-ratio correction; depth is the
rotated `y`. -/
noncomputable def project3D (p : Point3D ℝ) (proj : Projection ℝ) :
    Point2D ℝ :=
  let azRad := proj.azimuth * DEG2RAD
  let elRad := proj.elevation * DEG2RAD
  let cosA := Real.cos azRad
  let sinA := Real.sin azRad
  let cosE := Real.cos elRad
  let sinE := Real.sin elRad
  let x1 := p.x * cosA - p.y * sinA
  let y1 := p.x * sinA + p.y * cosA
  let z1 := p.z
  let x2 := x1
  let y2 := y1 * cosE - z1 * sinE
  let z2 := y1 * sinE + z1 * cosE
  ⟨proj.centerX + x2 * proj.zoom,
    proj.centerY - z2 * proj.zoom * proj.aspectRatio, y2⟩

/-- The `rotateProjection(proj, deltaAzimuth, deltaElevation)`: the azimuth is
`(azimuth + deltaAzimuth + 360) % 360` (JavaScript remainder) and the
elevation is clamped to `[-89, 89]`. -/
def rotateProjection {K : Type} [LinearOrderedField K] [FloorRing K]
    (proj : Projection K) (deltaAzimuth deltaElevation : K) : Projection K :=
  { proj with
    azimuth := jsRem (proj.azimuth + deltaAzimuth + 360) 360
    elevation := max (-89) (min 89 (proj.elevation + deltaElevation)) }

/-- The `zoomProjection(proj, factor)`: multiply the zoom, clamped below at 1. -/
def zoomProjection {K : Type} [LinearOrderedField K] [FloorRing K]
    (proj : Projection K) (factor : K) : Projection K :=
  { proj with zoom := max 1 (proj.zoom * factor) }

/-! ## Risk metrics (`computeRiskMetrics` in `src/render/project.ts`)

The slope field and the metrics are embedded over `ℝ` because the risk
score takes a square root of the slope variance.  The accumulation loop
over `i = 0 … n-1` is expressed as sums/folds over `List.range n`. -/

/-- The `SlopeData` from `src/data/surface.ts`. -/
structure SlopeData where
  dz_dx : List ℝ
  dz_dy : List ℝ
  magnitude : List ℝ
  angle : List ℝ

/-- The `RiskMetrics` from `src/render/project.ts`. -/
structure RiskMetrics where
  maxSlope : ℝ
  avgSlope : ℝ
  slopeVariance : ℝ
  upwardBias : ℝ
  termStructureSteepness : ℝ
  smileSteepness : ℝ
  highRiskZones : List (Nat × Nat × ℝ)
  flatZones : List (Nat × Nat)
  riskScore : ℝ

/-- The `computeRiskMetrics(slope, nx, ny)`.  The single pass over the `n`
cells accumulates max, sum, sum of squares, the positive-`dz_dy` count and
the two directional sums; the zone scan then walks the `nx × ny` grid. -/
noncomputable def computeRiskMetrics (slope : SlopeData) (nx ny : Nat) :
    RiskMetrics :=
  let n := slope.magnitude.length
  let mag := fun i => slope.magnitude.getD i 0
  let dzDx := fun i => slope.dz_dx.getD i 0
  let dzDy := fun i => slope.dz_dy.getD i 0
  let maxSlope := ((List.range n).map mag).foldl max 0
  let sumSlope := ((List.range n).map mag).sum
  let sumSlopeSq := ((List.range n).map (fun i => mag i * mag i)).sum
  let upwardCount := (((List.range n).map (fun i =>
    if 0 < dzDy i then (1 : ℕ) else 0))).sum
  let sumTermSlope := ((List.range n).map dzDx).sum
  let sumSmile := ((List.range n).map (fun i => |dzDy i|)).sum
  let avgSlope := sumSlope / n
  let slopeVariance := sumSlopeSq / n - avgSlope * avgSlope
  let threshold := maxSlope * 0.7
  let flatThreshold := maxSlope * 0.1
  let highRiskZones := (List.range nx).flatMap fun i =>
    (List.range ny).filterMap fun j =>
      if threshold ≤ mag (i * ny + j) then some (i, j, mag (i * ny + j))
      else none
  let flatZones := (List.range nx).flatMap fun i =>
    (List.range ny).filterMap fun j =>
      if threshold ≤ mag (i * ny + j) then none
      else if mag (i * ny + j) ≤ flatThreshold then some (i, j) else none
  let sortedZones := highRiskZones.mergeSort fun a b => b.2.2 ≤ a.2.2
  let normalizedMax := min 1 (maxSlope / 2)
  let normalizedVar := min 1 (Real.sqrt slopeVariance / 0.5)
  let normalizedTerm := min 1 (|sumTermSlope / n| / 0.5)
  let riskScore := normalizedMax * 0.4 + normalizedVar * 0.3 +
    normalizedTerm * 0.3
  ⟨maxSlope, avgSlope, slopeVariance, (upwardCount : ℝ) / n,
    sumTermSlope / n, sumSmile / n, sortedZones.take 10, flatZones.take 10,
    riskScore⟩

/-! ## Surface serialization (`src/ipc/serialize.ts`)

Layout: `[nx:u32][ny:u32][meta_len:u32][meta:json][pad to 4][x:f32*nx]`
`[y:f32*ny][z:f32*nx*ny]`, all little-endian, wrapped in a `SURFACE_FULL`
frame.  Two wire sub-codecs are abstracted as parameters:

* `metaEnc`/`metaDec` — `JSON.stringify`/`JSON.parse` of the metadata object
  through `TextEncoder`/`TextDecoder`;
* `f32enc`/`f32dec` — the 4-byte little-endian IEEE-754 binary32 write/read
  of one number (`Float32Array` element access).

The layout arithmetic — offsets, the padding `(4 - (12+meta_len)%4)%4`, and
the placement and lengths of the three float sections — is the part modelled
and verified here; the codec parameters are constrained only by their
length/round-trip contracts, which is what "f32-representable" means for
the claim. -/

/-- The `MessageType.SURFACE_FULL`. -/
def SURFACE_FULL : Nat := 0x10

/-- The body (frame payload) written by `serializeSurface(s)`: dimensions,
metadata length and bytes, zero padding to 4-byte alignment, then the
`x`, `y`, `z` float sections in order. -/
def serializeSurfaceBody (metaEnc : SurfaceMeta → List Nat)
    (f32enc : ℚ → List Nat) (s : Surface) : List Nat :=
  let metaBytes := metaEnc s.meta
  let headerSize := 4 + 4 + 4 + metaBytes.length
  let padding := (4 - headerSize % 4) % 4
  u32le s.nx ++ u32le s.ny ++ u32le metaBytes.length ++ metaBytes ++
    List.replicate padding 0 ++ (s.x.map f32enc).flatten ++
    (s.y.map f32enc).flatten ++ (s.z.map f32enc).flatten

/-- The `serializeSurface(s)`: the body wrapped in a `SURFACE_FULL` frame. -/
def serializeSurface (metaEnc : SurfaceMeta → List Nat)
    (f32enc : ℚ → List Nat) (s : Surface) : List Nat :=
  encodeFrame SURFACE_FULL (serializeSurfaceBody metaEnc f32enc s)

/-- Read `count` consecutive 4-byte floats starting at the head of `bytes`
(a `Float32Array` view of length `count`). -/
def readF32s (f32dec : List Nat → ℚ) (bytes : List Nat) (count : Nat) :
    List ℚ :=
  (List.range count).map fun i => f32dec ((bytes.drop (4 * i)).take 4)

/-- The `deserializeSurface(payload)`: re-read `nx`, `ny` and the metadata
length, decode the metadata, skip the alignment padding, and cut the float
block into the `x`, `y`, `z` sections. -/
def deserializeSurface (metaDec : List Nat → SurfaceMeta)
    (f32dec : List Nat → ℚ) (payload : List Nat) : Surface :=
  let nx := readU32 payload 0
  let ny := readU32 payload 4
  let metaLen := readU32 payload 8
  let metaBytes := (payload.drop 12).take metaLen
  let meta := metaDec metaBytes
  let headerSize := 4 + 4 + 4 + metaLen
  let padding := (4 - headerSize % 4) % 4
  let offset := 12 + metaLen + padding
  let f32Data := readF32s f32dec (payload.drop offset) (nx + ny + nx * ny)
  ⟨f32Data.take nx, (f32Data.drop nx).take ny, f32Data.drop (nx + ny),
    nx, ny, meta⟩

/-! ## Theorems -/

theorem u32le_length (n : Nat) : (u32le n).length = 4 := rfl

theorem u16le_length (n : Nat) : (u16le n).length = 2 := rfl

theorem encodeFrame_length (type : Nat) (payload : List Nat) (flags seq : Nat) :
    (encodeFrame type payload flags seq).length = 8 + payload.length := by
  simp [encodeFrame, u32le, u16le]
  omega

/-- Reading back the four bytes of a little-endian `u32` recovers any value
below `2^32`. -/
theorem readU32_u32le (n : Nat) (rest : List Nat) (h : n < 2 ^ 32) :
    readU32 (u32le n ++ rest) 0 = n := by
  simp only [readU32, u32le]
  simp only [List.cons_append, List.nil_append, List.getD_cons_zero,
    List.getD_cons_succ]
  omega

/-- Frame-codec round trip: for in-range header fields and any payload,
decoding the encoded frame succeeds and returns the original header fields
and the payload byte-for-byte. -/
theorem decodeFrame_encodeFrame (type flags seq : Nat) (payload : List Nat)
    (htype : type ≤ 255) (hflags : flags ≤ 255) (hseq : seq ≤ 65535)
    (hlen : payload.length < 2 ^ 32) :
    decodeFrame (encodeFrame type payload flags seq) =
      some (⟨payload.length, type, flags, seq⟩, payload) := by
  have hhead : decodeHeader (encodeFrame type payload flags seq) =
      some ⟨payload.length, type, flags, seq⟩ := by
    have hlen8 : ¬ (encodeFrame type payload flags seq).length <
        FRAME_HEADER_SIZE := by
      simp [encodeFrame_length, FRAME_HEADER_SIZE]
    rw [decodeHeader, if_neg hlen8]
    have h32 : readU32 (encodeFrame type payload flags seq) 0 =
        payload.length := by
      simpa [encodeFrame, List.append_assoc] using
        readU32_u32le payload.length _ hlen
    simp only [h32, encodeFrame, u32le, u16le]
    simp only [List.cons_append, List.nil_append, List.getD_cons_zero,
      List.getD_cons_succ, readU16]
    congr 2 <;> omega
  have hge : ¬ (encodeFrame type payload flags seq).length <
      FRAME_HEADER_SIZE + payload.length := by
    simp [encodeFrame_length, FRAME_HEADER_SIZE]
  have hdrop : (encodeFrame type payload flags seq).drop FRAME_HEADER_SIZE =
      payload := by
    simp [encodeFrame, u32le, u16le, FRAME_HEADER_SIZE]
  rw [decodeFrame, hhead]
  simp only [if_neg hge, hdrop, List.take_of_length_le (le_refl payload.length)]

/-- A successful `read` removes at least the 8 header bytes from the buffer
(well-foundedness of `readAll`). -/
theorem readerRead_length {buffer : List Nat} {f : FrameHeader × List Nat}
    {rest : List Nat} (h : readerRead buffer = some (f, rest)) :
    rest.length + FRAME_HEADER_SIZE ≤ buffer.length := by
  unfold readerRead at h
  split at h
  · exact absurd h (by simp)
  · rename_i hlen
    split at h
    · exact absurd h (by simp)
    · split at h
      · exact absurd h (by simp)
      · rename_i header hcomplete
        obtain ⟨-, hrest⟩ := Prod.mk.injEq .. ▸ Option.some.injEq .. ▸ h
        subst hrest
        simp only [List.length_drop]
        omega

theorem encodeAll_nil : encodeAll [] = [] := rfl

theorem encodeAll_cons (f : FrameInput) (fs : List FrameInput) :
    encodeAll (f :: fs) =
      encodeFrame f.type f.payload f.flags f.seq ++ encodeAll fs := rfl

/-- On a buffer consisting of one in-range encoded frame followed by
arbitrary trailing bytes, `read` peels off exactly that frame and leaves the
trailing bytes buffered. -/
theorem readerRead_encodeFrame_append (type flags seq : Nat)
    (payload rest : List Nat) (htype : type ≤ 255) (hflags : flags ≤ 255)
    (hseq : seq ≤ 65535) (hlen : payload.length < 2 ^ 32) :
    readerRead (encodeFrame type payload flags seq ++ rest) =
      some ((⟨payload.length, type, flags, seq⟩, payload), rest) := by
  have hlength : (encodeFrame type payload flags seq ++ rest).length =
      8 + payload.length + rest.length := by
    simp [encodeFrame_length]
  have hhead : decodeHeader (encodeFrame type payload flags seq ++ rest) =
      some ⟨payload.length, type, flags, seq⟩ := by
    rw [decodeHeader,
      if_neg (by rw [hlength]; simp [FRAME_HEADER_SIZE]; omega)]
    have h32 : readU32 (encodeFrame type payload flags seq ++ rest) 0 =
        payload.length := by
      simpa [encodeFrame, List.append_assoc] using
        readU32_u32le payload.length _ hlen
    simp only [h32, encodeFrame, u32le, u16le]
    simp only [List.cons_append, List.nil_append, List.getD_cons_zero,
      List.getD_cons_succ, readU16]
    congr 2 <;> omega
  have hdrop : (encodeFrame type payload flags seq ++ rest).drop
      FRAME_HEADER_SIZE = payload ++ rest := by
    simp [encodeFrame, u32le, u16le, FRAME_HEADER_SIZE]
  have hdrop2 : (encodeFrame type payload flags seq ++ rest).drop
      (FRAME_HEADER_SIZE + payload.length) = rest := by
    have h8 : FRAME_HEADER_SIZE + payload.length =
        (encodeFrame type payload flags seq).length := by
      simp [encodeFrame_length, FRAME_HEADER_SIZE]
    rw [h8, List.drop_left]
  rw [readerRead, if_neg (by rw [hlength]; simp [FRAME_HEADER_SIZE]; omega),
    hhead]
  dsimp only
  rw [if_neg (by rw [hlength]; simp only [FRAME_HEADER_SIZE]; omega), hdrop,
    hdrop2]
  simp [List.take_left]

/-- A buffer shorter than a full header, or shorter than the full frame its
header announces, yields no frame from `read` (and the reader state is, by
definition of `readerRead`, unchanged). -/
theorem readerRead_incomplete (buffer : List Nat)
    (h : buffer.length < FRAME_HEADER_SIZE ∨
      ∀ header, decodeHeader buffer = some header →
        buffer.length < FRAME_HEADER_SIZE + header.length) :
    readerRead buffer = none := by
  rw [readerRead]
  rcases h with h | h
  · rw [if_pos h]
  · split
    · rfl
    · cases hd : decodeHeader buffer with
      | none => simp
      | some header => simp [h header hd]

theorem readerReadAll_of_none {b : List Nat} (h : readerRead b = none) :
    readerReadAll b = ([], b) := by
  rw [readerReadAll]
  split
  · rfl
  · rename_i f rest heq
    rw [h] at heq
    exact Option.noConfusion heq

theorem readerReadAll_of_some {b : List Nat} {f : FrameHeader × List Nat}
    {rest : List Nat} (h : readerRead b = some (f, rest)) :
    readerReadAll b = (f :: (readerReadAll rest).1, (readerReadAll rest).2)
    := by
  rw [readerReadAll]
  split
  · rename_i heq
    rw [h] at heq
    exact Option.noConfusion heq
  · rename_i f' rest' heq
    rw [h] at heq
    simp only [Option.some.injEq, Prod.mk.injEq] at heq
    obtain ⟨h1, h2⟩ := heq
    subst h1
    subst h2
    rfl

/-- Two buffers that agree as prefixes of a common byte stream decode the
same header (the header reads only the first 8 bytes). -/
theorem decodeHeader_agree {b c r₁ r₂ : List Nat} {hdr : FrameHeader}
    (h : b ++ r₁ = c ++ r₂) (h8b : 8 ≤ b.length) (h8c : 8 ≤ c.length)
    (hd : decodeHeader c = some hdr) : decodeHeader b = some hdr := by
  have hagree : ∀ i, i < 8 → b.getD i 0 = c.getD i 0 := by
    intro i hi
    have h1 : b.getD i 0 = (b ++ r₁).getD i 0 :=
      (List.getD_append b r₁ 0 i (by omega)).symm
    have h2 : c.getD i 0 = (c ++ r₂).getD i 0 :=
      (List.getD_append c r₂ 0 i (by omega)).symm
    rw [h1, h2, h]
  rw [decodeHeader, if_neg (by simp only [FRAME_HEADER_SIZE]; omega)] at hd
  rw [decodeHeader, if_neg (by simp only [FRAME_HEADER_SIZE]; omega)]
  have e32 : readU32 b 0 = readU32 c 0 := by
    simp only [readU32, hagree 0 (by omega), hagree 1 (by omega),
      hagree 2 (by omega), hagree 3 (by omega)]
  have e16 : readU16 b 6 = readU16 c 6 := by
    simp only [readU16, hagree 6 (by omega), hagree 7 (by omega)]
  rw [e32, e16, hagree 4 (by omega), hagree 5 (by omega)]
  exact hd

/-- The header of an encoded frame, read off the wire with trailing bytes. -/
theorem decodeHeader_encodeFrame_append (type flags seq : Nat)
    (payload rest : List Nat) (htype : type ≤ 255) (hflags : flags ≤ 255)
    (hseq : seq ≤ 65535) (hlen : payload.length < 2 ^ 32) :
    decodeHeader (encodeFrame type payload flags seq ++ rest) =
      some ⟨payload.length, type, flags, seq⟩ := by
  have hlength : (encodeFrame type payload flags seq ++ rest).length =
      8 + payload.length + rest.length := by
    simp [encodeFrame_length]
  rw [decodeHeader,
    if_neg (by rw [hlength]; simp [FRAME_HEADER_SIZE]; omega)]
  have h32 : readU32 (encodeFrame type payload flags seq ++ rest) 0 =
      payload.length := by
    simpa [encodeFrame, List.append_assoc] using
      readU32_u32le payload.length _ hlen
  simp only [h32, encodeFrame, u32le, u16le]
  simp only [List.cons_append, List.nil_append, List.getD_cons_zero,
    List.getD_cons_succ, readU16]
  congr 2 <;> omega

/-- On a buffer that is a prefix of an encoded stream but holds less than
the whole first frame, `read` yields nothing. -/
theorem readerRead_short_none (g : FrameInput)
    (gs : List FrameInput) (b s : List Nat) (hg : g.InRange)
    (hsplit : b ++ s = encodeAll (g :: gs))
    (hshort : b.length < 8 + g.payload.length) : readerRead b = none := by
  obtain ⟨ht, hfl, hsq, hp⟩ := hg
  apply readerRead_incomplete
  by_cases h8 : b.length < 8
  · exact Or.inl (by simpa [FRAME_HEADER_SIZE] using h8)
  · right
    intro header hdr
    have hsplit' : b ++ s =
        encodeFrame g.type g.payload g.flags g.seq ++ encodeAll gs := by
      rw [hsplit, encodeAll_cons]
    have hd : decodeHeader b = some g.header :=
      decodeHeader_agree hsplit' (by omega)
        (by rw [encodeFrame_length]; omega)
        (decodeHeader_encodeFrame_append g.type g.flags g.seq g.payload
          (encodeAll gs) ht hfl hsq hp)
    rw [hd] at hdr
    cases hdr
    simpa [FRAME_HEADER_SIZE, FrameInput.header] using hshort

/-- On a buffer that is a prefix of an encoded stream and holds the whole
first frame, `read` peels off exactly that frame. -/
theorem readerRead_peels_first (g : FrameInput) (gs : List FrameInput)
    (b s : List Nat) (hg : g.InRange)
    (hsplit : b ++ s = encodeAll (g :: gs))
    (hcomplete : 8 + g.payload.length ≤ b.length) :
    readerRead b = some (g.asFrame, b.drop (8 + g.payload.length)) ∧
      b = encodeFrame g.type g.payload g.flags g.seq ++
        b.drop (8 + g.payload.length) := by
  obtain ⟨ht, hfl, hsq, hp⟩ := hg
  have henc : (encodeFrame g.type g.payload g.flags g.seq).length =
      8 + g.payload.length := encodeFrame_length ..
  have hpre : b.take (8 + g.payload.length) =
      encodeFrame g.type g.payload g.flags g.seq := by
    have h1 : (b ++ s).take (8 + g.payload.length) =
        encodeFrame g.type g.payload g.flags g.seq := by
      rw [hsplit, encodeAll_cons, List.take_append_of_le_length (by omega),
        ← henc, List.take_length]
    rwa [List.take_append_of_le_length hcomplete] at h1
  have hbuf : b = encodeFrame g.type g.payload g.flags g.seq ++
      b.drop (8 + g.payload.length) := by
    conv_lhs => rw [← List.take_append_drop (8 + g.payload.length) b]
    rw [hpre]
  refine ⟨?_, hbuf⟩
  conv_lhs => rw [hbuf]
  exact readerRead_encodeFrame_append g.type g.flags g.seq g.payload _
    ht hfl hsq hp

/-- Draining a buffered prefix of an encoded stream with `readAll` emits
exactly the fully buffered frames, in order, and leaves a leftover buffer
with no complete frame. -/
theorem readerReadAll_spec : ∀ (n : Nat) (gs : List FrameInput)
    (b s : List Nat), b.length ≤ n → (∀ g ∈ gs, g.InRange) →
    b ++ s = encodeAll gs →
    ∃ k b', readerReadAll b = ((gs.take k).map FrameInput.asFrame, b') ∧
      b' ++ s = encodeAll (gs.drop k) ∧ readerRead b' = none := by
  intro n
  induction n with
  | zero =>
    intro gs b s hn hrange hsplit
    have hnone : readerRead b = none := by
      apply readerRead_incomplete
      left
      have : b.length = 0 := by omega
      simp [this, FRAME_HEADER_SIZE]
    exact ⟨0, b, readerReadAll_of_none hnone, by simpa using hsplit, hnone⟩
  | succ n ih =>
    intro gs b s hn hrange hsplit
    cases hread : readerRead b with
    | none =>
      exact ⟨0, b, readerReadAll_of_none hread, by simpa using hsplit, hread⟩
    | some fb =>
      obtain ⟨f, rest⟩ := fb
      cases gs with
      | nil =>
        exfalso
        have hb : b = [] := by
          have := congrArg List.length hsplit
          simp [encodeAll_nil] at this
          exact this.1
        rw [hb] at hread
        rw [readerRead_incomplete [] (Or.inl (by simp [FRAME_HEADER_SIZE]))]
          at hread
        exact Option.noConfusion hread
      | cons g gs' =>
        have hg := hrange g (List.mem_cons_self ..)
        by_cases hshort : b.length < 8 + g.payload.length
        · rw [readerRead_short_none g gs' b s hg hsplit hshort]
            at hread
          exact Option.noConfusion hread
        · obtain ⟨hpeel, hbuf⟩ := readerRead_peels_first g gs' b s hg hsplit
            (by omega)
          rw [hpeel] at hread
          simp only [Option.some.injEq, Prod.mk.injEq] at hread
          obtain ⟨hfst, hsnd⟩ := hread
          have hrest : b.drop (8 + g.payload.length) ++ s = encodeAll gs' := by
            have h1 : (encodeFrame g.type g.payload g.flags g.seq ++
                b.drop (8 + g.payload.length)) ++ s =
                encodeFrame g.type g.payload g.flags g.seq ++
                  encodeAll gs' := by
              rw [← hbuf, hsplit, encodeAll_cons]
            rw [List.append_assoc] at h1
            exact List.append_cancel_left h1
          have hlen : (b.drop (8 + g.payload.length)).length ≤ n := by
            have := readerRead_length hpeel
            simp only [FRAME_HEADER_SIZE] at this
            omega
          obtain ⟨k, b', hall, hsplit', hnone⟩ := ih gs'
            (b.drop (8 + g.payload.length)) s hlen
            (fun g hg => hrange g (List.mem_cons_of_mem _ hg)) hrest
          refine ⟨k + 1, b', ?_, ?_, hnone⟩
          · rw [readerReadAll_of_some hpeel, hall, List.take_succ_cons,
              List.map_cons, FrameInput.asFrame]
          · simpa using hsplit'

/-- Feeding any chunking of the tail of an encoded stream into a reader whose
buffer holds an incomplete prefix: the frames come out in order and the
leftover buffer again holds no complete frame. -/
theorem readerFeed_spec : ∀ (chunks : List (List Nat)) (gs : List FrameInput)
    (b s : List Nat), (∀ g ∈ gs, g.InRange) →
    b ++ (chunks.flatten ++ s) = encodeAll gs → readerRead b = none →
    ∃ k b', readerFeed b chunks = ((gs.take k).map FrameInput.asFrame, b') ∧
      b' ++ s = encodeAll (gs.drop k) ∧ readerRead b' = none := by
  intro chunks
  induction chunks with
  | nil =>
    intro gs b s hrange hsplit hnone
    exact ⟨0, b, rfl, by simpa using hsplit, hnone⟩
  | cons c cs ih =>
    intro gs b s hrange hsplit hnone
    have hsplit1 : (b ++ c) ++ (cs.flatten ++ s) = encodeAll gs := by
      simpa [List.append_assoc] using hsplit
    obtain ⟨k₁, b₁, hall, hsplit₁, hnone₁⟩ := readerReadAll_spec
      (b ++ c).length gs (b ++ c) (cs.flatten ++ s) le_rfl hrange hsplit1
    obtain ⟨k₂, b₂, hfeed, hsplit₂, hnone₂⟩ := ih (gs.drop k₁) b₁ s
      (fun g hg => hrange g (List.mem_of_mem_drop hg)) hsplit₁ hnone₁
    refine ⟨k₁ + k₂, b₂, ?_, ?_, hnone₂⟩
    · show (let (fs, buffer') := readerReadAll (readerAppend b c);
        let (fs', final) := readerFeed buffer' cs; (fs ++ fs', final)) = _
      rw [readerAppend, hall]
      simp only [hfeed]
      rw [← List.map_append, ← List.take_add]
    · rwa [List.drop_drop] at hsplit₂

/-- C2: For every sequence of in-range frames and every chunking of their
concatenated encodings, draining the reader after each append returns
exactly the original frames, in order, with their payloads byte-for-byte,
and an empty final buffer; and `read` on a buffer holding less than a
complete frame (in particular, less than a full 8-byte header) returns
`null` and leaves the buffered bytes unchanged. -/
theorem frameReader_reassembles_any_chunking (gs : List FrameInput)
    (chunks : List (List Nat)) (hrange : ∀ g ∈ gs, g.InRange)
    (hstream : chunks.flatten = encodeAll gs) :
    readerFeed [] chunks = (gs.map FrameInput.asFrame, []) ∧
      ∀ buffer : List Nat, (buffer.length < FRAME_HEADER_SIZE ∨
          ∀ header, decodeHeader buffer = some header →
            buffer.length < FRAME_HEADER_SIZE + header.length) →
        readerReadState buffer = (none, buffer) := by
  constructor
  · have hnil : readerRead ([] : List Nat) = none :=
      readerRead_incomplete [] (Or.inl (by simp [FRAME_HEADER_SIZE]))
    obtain ⟨k, b', hfeed, hsplit, hnone⟩ := readerFeed_spec chunks gs [] []
      hrange (by simpa using hstream) hnil
    -- the stream was fed completely, so the leftover must be empty
    have hdrop : gs.drop k = [] := by
      by_contra hne
      obtain ⟨g, gs', hcons⟩ := List.exists_cons_of_ne_nil hne
      have hg : g.InRange := hrange g (by
        have : g ∈ gs.drop k := by rw [hcons]; exact List.mem_cons_self ..
        exact List.mem_of_mem_drop this)
      have hlen : 8 + g.payload.length ≤ b'.length := by
        have := congrArg List.length (by simpa using hsplit)
        rw [hcons, encodeAll_cons] at this
        simp only [List.length_append, encodeFrame_length] at this
        omega
      obtain ⟨hpeel, -⟩ := readerRead_peels_first g gs' b' [] hg
        (by rw [← hcons]; simpa using hsplit) hlen
      rw [hnone] at hpeel
      exact Option.noConfusion hpeel
    have hb' : b' = [] := by
      have := hsplit
      rw [hdrop, encodeAll_nil] at this
      simpa using this
    have hk : gs.take k = gs := by
      have := List.take_append_drop k gs
      rw [hdrop, List.append_nil] at this
      exact this
    rw [hfeed, hb', hk]
  · intro buffer h
    rw [readerReadState, readerRead_incomplete buffer h]

theorem minmaxGo_spec (v : List ℚ) : ∀ lo hi : XQ,
    ((minmaxGo v (lo, hi)).1 = lo ∨
      ∃ a ∈ v, (minmaxGo v (lo, hi)).1 = XQ.fin a) ∧
    (minmaxGo v (lo, hi)).1 ≤ lo ∧
    (∀ a ∈ v, (minmaxGo v (lo, hi)).1 ≤ XQ.fin a) ∧
    ((minmaxGo v (lo, hi)).2 = hi ∨
      ∃ a ∈ v, (minmaxGo v (lo, hi)).2 = XQ.fin a) ∧
    hi ≤ (minmaxGo v (lo, hi)).2 ∧
    (∀ a ∈ v, XQ.fin a ≤ (minmaxGo v (lo, hi)).2) := by
  induction v with
  | nil => intro lo hi; simp [minmaxGo]
  | cons val rest ih =>
    intro lo hi
    simp only [minmaxGo]
    obtain ⟨hmem, hle, hall, hmem', hge, hall'⟩ :=
      ih (if XQ.fin val < lo then XQ.fin val else lo)
        (if hi < XQ.fin val then XQ.fin val else hi)
    set lo' := if XQ.fin val < lo then XQ.fin val else lo with hlo'
    set hi' := if hi < XQ.fin val then XQ.fin val else hi with hhi'
    have hlo'le : lo' ≤ lo := by
      rw [hlo']; split <;> [exact le_of_lt (by assumption); exact le_rfl]
    have hlo'val : lo' ≤ XQ.fin val := by
      rw [hlo']; split <;> [exact le_rfl; exact le_of_not_lt (by assumption)]
    have hhi'ge : hi ≤ hi' := by
      rw [hhi']; split <;> [exact le_of_lt (by assumption); exact le_rfl]
    have hhi'val : XQ.fin val ≤ hi' := by
      rw [hhi']; split <;> [exact le_rfl; exact le_of_not_lt (by assumption)]
    have hlo'cases : lo' = XQ.fin val ∨ lo' = lo := by
      rw [hlo']; split; exacts [Or.inl rfl, Or.inr rfl]
    have hhi'cases : hi' = XQ.fin val ∨ hi' = hi := by
      rw [hhi']; split; exacts [Or.inl rfl, Or.inr rfl]
    refine ⟨?_, le_trans hle hlo'le, ?_, ?_, le_trans hhi'ge hge, ?_⟩
    · rcases hmem with h | ⟨a, ha, h⟩
      · rcases hlo'cases with hc | hc
        · exact Or.inr ⟨val, List.mem_cons_self .., h.trans hc⟩
        · exact Or.inl (h.trans hc)
      · exact Or.inr ⟨a, List.mem_cons_of_mem _ ha, h⟩
    · intro a ha
      rcases List.mem_cons.1 ha with rfl | ha'
      · exact le_trans hle hlo'val
      · exact hall a ha'
    · rcases hmem' with h | ⟨a, ha, h⟩
      · rcases hhi'cases with hc | hc
        · exact Or.inr ⟨val, List.mem_cons_self .., h.trans hc⟩
        · exact Or.inl (h.trans hc)
      · exact Or.inr ⟨a, List.mem_cons_of_mem _ ha, h⟩
    · intro a ha
      rcases List.mem_cons.1 ha with rfl | ha'
      · exact le_trans hhi'val hge
      · exact hall' a ha'

/-- On a nonempty vector, `minmax` returns the attained minimum and maximum. -/
theorem minmax_isMinMax (v : List ℚ) (hv : v ≠ []) : IsMinMax v (minmax v) := by
  obtain ⟨hmem, -, hall, hmem', -, hall'⟩ := minmaxGo_spec v ⊤ ⊥
  have hne : ∃ a, a ∈ v := by
    cases v with
    | nil => exact absurd rfl hv
    | cons a l => exact ⟨a, List.mem_cons_self ..⟩
  obtain ⟨a0, ha0⟩ := hne
  refine ⟨?_, fun a ha => hall a ha, ?_, fun a ha => hall' a ha⟩
  · rcases hmem with h | h
    · exfalso
      have := hall a0 ha0
      rw [h] at this
      exact absurd this (by simp [XQ.fin, top_le_iff])
    · exact h
  · rcases hmem' with h | h
    · exfalso
      have := hall' a0 ha0
      rw [h] at this
      exact absurd this (by simp [XQ.fin, le_bot_iff])
    · exact h

theorem enforceGo_of_converged (sqrtFn logFn : ℚ → ℚ) (tolerance : ℚ) :
    ∀ (n : Nat) (cur : Surface),
      enforceConverged sqrtFn logFn tolerance n cur = true →
      (checkAllArbitrage logFn (enforceGo sqrtFn logFn tolerance n cur) none
          tolerance).arbitrageFree = true := by
  intro n
  induction n with
  | zero => intro cur h; exact absurd h (by simp [enforceConverged])
  | succ n ih =>
    intro cur h
    rw [enforceConverged] at h
    rw [enforceGo]
    by_cases hfree :
        (checkAllArbitrage logFn cur none tolerance).arbitrageFree = true
    · simpa [hfree] using hfree
    · rw [if_neg hfree] at h ⊢
      exact ih _ h

/-- The binary-search loop stays inside its bracket `[lo, hi)`. -/
theorem findIndexGo_bounds (values : List ℚ) (target : ℚ) :
    ∀ (d lo hi : Nat), hi - lo ≤ d → lo < hi →
      lo ≤ findIndexGo values target lo hi ∧
        findIndexGo values target lo hi < hi := by
  intro d
  induction d with
  | zero => intro lo hi hd hlt; omega
  | succ d ih =>
    intro lo hi hd hlt
    rw [findIndexGo]
    by_cases hloop : lo + 1 < hi
    · rw [if_pos hloop]
      dsimp only
      split
      · have := ih ((lo + hi) / 2) hi (by omega) (by omega)
        omega
      · have := ih lo ((lo + hi) / 2) (by omega) (by omega)
        omega
    · rw [if_neg hloop]
      omega

/-- The `findIndex` on a ≥2-point axis always lands in `[0, n-2]`; below the
axis it returns `0` and above it `n-2`. -/
theorem findIndex_spec (values : List ℚ) (target : ℚ)
    (h2 : 2 ≤ values.length) (hsort : values.Pairwise (· < ·)) :
    (0 ≤ findIndex values target ∧
      findIndex values target ≤ (values.length : ℤ) - 2) ∧
    (target < values.getD 0 0 → findIndex values target = 0) ∧
    (values.getD (values.length - 1) 0 < target →
      findIndex values target = (values.length : ℤ) - 2) := by
  have hn0 : values.length ≠ 0 := by omega
  refine ⟨?_, ?_, ?_⟩
  · rw [findIndex]
    simp only [hn0, if_false]
    split
    · omega
    · split
      · omega
      · rename_i h1 h2'
        have hb := findIndexGo_bounds values target (values.length - 1) 0
          (values.length - 1) le_rfl (by omega)
        omega
  · intro hbelow
    rw [findIndex]
    simp only [hn0, if_false]
    rw [if_pos (le_of_lt hbelow)]
  · intro habove
    have hfirst : ¬ target ≤ values.getD 0 0 := by
      have hlt : values.getD 0 0 ≤ values.getD (values.length - 1) 0 := by
        rcases Nat.lt_or_ge 1 values.length with h | h
        · have := List.pairwise_iff_getElem.1 hsort 0 (values.length - 1)
            (by omega) (by omega) (by omega)
          simp only [List.getD_eq_getElem?_getD, List.getElem?_eq_getElem
            (by omega : 0 < values.length), List.getElem?_eq_getElem
            (by omega : values.length - 1 < values.length)]
          exact le_of_lt (by simpa using this)
        · omega
      intro hc
      exact absurd (lt_of_le_of_lt (hc.trans hlt) habove) (lt_irrefl _)
    rw [findIndex]
    simp only [hn0, if_false]
    rw [if_neg hfirst, if_pos (le_of_lt habove)]

/-- For a nonnegative dividend, the JavaScript remainder by 360 is the
mathematical residue `a - 360⌊a/360⌋`, which lies in `[0, 360)`. -/
theorem jsRem_nonneg_eq {K : Type} [LinearOrderedField K] [FloorRing K]
    (a : K) (ha : 0 ≤ a) :
    jsRem a 360 = a - 360 * (⌊a / 360⌋ : K) ∧ 0 ≤ jsRem a 360 ∧
      jsRem a 360 < 360 := by
  have h360 : (0 : K) < 360 := by norm_num
  have hdiv : 0 ≤ a / 360 := div_nonneg ha (le_of_lt h360)
  have htr : jsTrunc (a / 360) = ⌊a / 360⌋ := by
    rw [jsTrunc, if_pos hdiv]
  have heq : jsRem a 360 = a - 360 * (⌊a / 360⌋ : K) := by
    rw [jsRem, htr]
  refine ⟨heq, ?_, ?_⟩
  · rw [heq]
    have := Int.floor_le (a / 360)
    have h1 : 360 * (⌊a / 360⌋ : K) ≤ 360 * (a / 360) := by
      exact mul_le_mul_of_nonneg_left this (le_of_lt h360)
    rw [mul_div_cancel₀ a (ne_of_gt h360)] at h1
    linarith
  · rw [heq]
    have := Int.lt_floor_add_one (a / 360)
    have h1 : 360 * (a / 360) < 360 * ((⌊a / 360⌋ : K) + 1) :=
      mul_lt_mul_of_pos_left this h360
    rw [mul_div_cancel₀ a (ne_of_gt h360)] at h1
    linarith

theorem foldl_max_nonneg (l : List ℝ) : ∀ a : ℝ, 0 ≤ a → 0 ≤ l.foldl max a
    := by
  induction l with
  | nil => intro a ha; simpa using ha
  | cons x xs ih =>
    intro a ha
    exact ih (max a x) (le_trans ha (le_max_left a x))

theorem foldl_max_zero_of_all_zero (l : List ℝ) (h : ∀ x ∈ l, x = 0) :
    ∀ a : ℝ, a = 0 → l.foldl max a = 0 := by
  induction l with
  | nil => intro a ha; simpa using ha
  | cons x xs ih =>
    intro a ha
    have hx : x = 0 := h x (List.mem_cons_self ..)
    exact ih (fun y hy => h y (List.mem_cons_of_mem _ hy)) (max a x)
      (by rw [ha, hx]; simp)

theorem readF32s_flatten_append (f32dec : List Nat → ℚ)
    (f32enc : ℚ → List Nat) (hlen : ∀ q, (f32enc q).length = 4) :
    ∀ (xs : List ℚ) (rest : List Nat),
      (∀ q ∈ xs, f32dec (f32enc q) = q) →
      readF32s f32dec ((xs.map f32enc).flatten ++ rest) xs.length = xs := by
  intro xs
  induction xs with
  | nil => intro rest hrt; simp [readF32s]
  | cons q qs ih =>
    intro rest hrt
    rw [readF32s, List.length_cons, List.range_succ_eq_map]
    simp only [List.map_cons, List.map_map]
    congr 1
    · simp only [Nat.mul_zero, List.drop_zero, List.flatten_cons,
        List.append_assoc]
      rw [List.take_append_of_le_length (by rw [hlen q]),
        ← hlen q, List.take_length]
      exact hrt q (List.mem_cons_self ..)
    · have hstep : ∀ i : Nat,
          ((f32enc q :: qs.map f32enc).flatten ++ rest).drop (4 * (i + 1)) =
            ((qs.map f32enc).flatten ++ rest).drop (4 * i) := by
        intro i
        simp only [List.flatten_cons, List.append_assoc]
        rw [show 4 * (i + 1) = (f32enc q).length + 4 * i by rw [hlen q]; ring,
          List.drop_append]
      have hih := ih rest (fun q hq => hrt q (List.mem_cons_of_mem _ hq))
      rw [readF32s] at hih
      refine Eq.trans ?_ hih
      apply List.map_congr_left
      intro i hi
      simp only [Function.comp_apply, Nat.succ_eq_add_one, hstep i]

theorem getD_drop_zero (l : List Nat) (i j : Nat) :
    (l.drop i).getD j 0 = l.getD (i + j) 0 := by
  simp [List.getD_eq_getElem?_getD, List.getElem?_drop]

theorem readU32_drop (l : List Nat) (i : Nat) :
    readU32 l i = readU32 (l.drop i) 0 := by
  simp only [readU32, getD_drop_zero]
  norm_num

/-- The byte length of a flattened list of 4-byte encodings. -/
theorem flatten_map_length (f32enc : ℚ → List Nat)
    (hlen : ∀ q, (f32enc q).length = 4) (xs : List ℚ) :
    ((xs.map f32enc).flatten).length = 4 * xs.length := by
  induction xs with
  | nil => simp
  | cons q qs ih => simp [hlen q, ih]; omega

/-- Reading `a + b` floats splits into the first `a` and the next `b`. -/
theorem readF32s_add (f32dec : List Nat → ℚ) (bytes : List Nat) (a b : Nat) :
    readF32s f32dec bytes (a + b) =
      readF32s f32dec bytes a ++
        readF32s f32dec (bytes.drop (4 * a)) b := by
  rw [readF32s, readF32s, readF32s, List.range_add, List.map_append,
    List.map_map]
  congr 1
  apply List.map_congr_left
  intro i hi
  simp only [Function.comp_apply, List.drop_drop]
  congr 2
  ring

/-- The serialize/deserialize round trip for the surface payload: under the
codec contracts (the metadata JSON round-trips, each float encodes to 4
bytes and representable values round-trip), the deserialized surface is the
original, field for field. -/
theorem deserializeSurface_roundtrip (metaEnc : SurfaceMeta → List Nat)
    (metaDec : List Nat → SurfaceMeta) (f32enc : ℚ → List Nat)
    (f32dec : List Nat → ℚ) (s : Surface)
    (hx : s.x.length = s.nx) (hy : s.y.length = s.ny)
    (hz : s.z.length = s.nx * s.ny)
    (hnx : s.nx < 2 ^ 32) (hny : s.ny < 2 ^ 32)
    (hmeta32 : (metaEnc s.meta).length < 2 ^ 32)
    (hmetart : metaDec (metaEnc s.meta) = s.meta)
    (hlen4 : ∀ q, (f32enc q).length = 4)
    (hrtx : ∀ q ∈ s.x, f32dec (f32enc q) = q)
    (hrty : ∀ q ∈ s.y, f32dec (f32enc q) = q)
    (hrtz : ∀ q ∈ s.z, f32dec (f32enc q) = q) :
    deserializeSurface metaDec f32dec
      (serializeSurfaceBody metaEnc f32enc s) = s := by
  set mB := metaEnc s.meta with hmB
  set m := mB.length with hm
  set pad := (4 - (4 + 4 + 4 + m) % 4) % 4 with hpad
  set X := (s.x.map f32enc).flatten with hX
  set Y := (s.y.map f32enc).flatten with hY
  set Z := (s.z.map f32enc).flatten with hZ
  have hXlen : X.length = 4 * s.nx := by
    rw [hX, flatten_map_length f32enc hlen4, hx]
  have hYlen : Y.length = 4 * s.ny := by
    rw [hY, flatten_map_length f32enc hlen4, hy]
  have hbody : serializeSurfaceBody metaEnc f32enc s =
      u32le s.nx ++ (u32le s.ny ++ (u32le m ++ (mB ++
        (List.replicate pad 0 ++ (X ++ (Y ++ Z)))))) := by
    rw [serializeSurfaceBody]
    simp only [← hmB, ← hm, ← hpad, ← hX, ← hY, ← hZ, List.append_assoc]
  set B := serializeSurfaceBody metaEnc f32enc s with hB
  -- the three u32 header reads
  have hr0 : readU32 B 0 = s.nx := by
    rw [hbody]
    exact readU32_u32le s.nx _ hnx
  have hdrop4 : B.drop 4 = u32le s.ny ++ (u32le m ++ (mB ++
      (List.replicate pad 0 ++ (X ++ (Y ++ Z))))) := by
    rw [hbody, show (4 : Nat) = (u32le s.nx).length from rfl,
      List.drop_left]
  have hr4 : readU32 B 4 = s.ny := by
    rw [readU32_drop, hdrop4]
    exact readU32_u32le s.ny _ hny
  have hdrop8 : B.drop 8 = u32le m ++ (mB ++
      (List.replicate pad 0 ++ (X ++ (Y ++ Z)))) := by
    have : B.drop 8 = (B.drop 4).drop 4 := by
      rw [List.drop_drop]
    rw [this, hdrop4, show (4 : Nat) = (u32le s.ny).length from rfl,
      List.drop_left]
  have hr8 : readU32 B 8 = m := by
    rw [readU32_drop, hdrop8]
    exact readU32_u32le m _ hmeta32
  have hdrop12 : B.drop 12 = mB ++
      (List.replicate pad 0 ++ (X ++ (Y ++ Z))) := by
    have : B.drop 12 = (B.drop 8).drop 4 := by
      rw [List.drop_drop]
    rw [this, hdrop8, show (4 : Nat) = (u32le m).length from rfl,
      List.drop_left]
  have hmeta : (B.drop 12).take m = mB := by
    rw [hdrop12, hm, List.take_left]
  have hdropOff : B.drop (12 + m + pad) = X ++ (Y ++ Z) := by
    have h1 : B.drop (12 + m + pad) = ((B.drop 12).drop m).drop pad := by
      rw [List.drop_drop, List.drop_drop]
      congr 1
      omega
    rw [h1, hdrop12, hm, List.drop_left]
    exact List.drop_left' (by simp)
  -- the float block
  have hfloats : readF32s f32dec (X ++ (Y ++ Z)) (s.nx + s.ny + s.nx * s.ny)
      = s.x ++ (s.y ++ s.z) := by
    have hsplit1 : s.nx + s.ny + s.nx * s.ny =
        s.nx + (s.ny + s.nx * s.ny) := by omega
    rw [hsplit1, readF32s_add]
    have hx1 : readF32s f32dec (X ++ (Y ++ Z)) s.nx = s.x := by
      have := readF32s_flatten_append f32dec f32enc hlen4 s.x (Y ++ Z) hrtx
      rw [hx] at this
      rw [← hX] at this
      exact this
    have hdX : (X ++ (Y ++ Z)).drop (4 * s.nx) = Y ++ Z := by
      rw [← hXlen, List.drop_left]
    rw [hx1, hdX, readF32s_add]
    have hy1 : readF32s f32dec (Y ++ Z) s.ny = s.y := by
      have := readF32s_flatten_append f32dec f32enc hlen4 s.y Z hrty
      rw [hy] at this
      rw [← hY] at this
      exact this
    have hdY : (Y ++ Z).drop (4 * s.ny) = Z := by
      rw [← hYlen, List.drop_left]
    rw [hy1, hdY]
    congr 1
    have := readF32s_flatten_append f32dec f32enc hlen4 s.z [] hrtz
    rw [hz] at this
    rw [← hZ] at this
    simpa using this
  -- assemble
  rw [deserializeSurface]
  simp only [hr0, hr4, hr8, hmeta, hmetart, ← hpad]
  rw [show 12 + m + ((4 - (4 + 4 + 4 + m) % 4) % 4) = 12 + m + pad by
    rw [hpad], hdropOff, hfloats]
  have htx : (s.x ++ (s.y ++ s.z)).take s.nx = s.x := by
    rw [← hx, List.take_left]
  have hdx : (s.x ++ (s.y ++ s.z)).drop s.nx = s.y ++ s.z := by
    rw [← hx, List.drop_left]
  have hty : (s.y ++ s.z).take s.ny = s.y := by
    rw [← hy, List.take_left]
  have hdxy : (s.x ++ (s.y ++ s.z)).drop (s.nx + s.ny) = s.z := by
    rw [← List.drop_drop, hdx, ← hy, List.drop_left]
  rw [htx, hdx, hty, hdxy]

/-! ## Supporting lemmas for the claim theorems -/

theorem checkAllArbitrage_free_iff (logFn : ℚ → ℚ) (s : Surface)
    (forward : Option ℚ) (tol : ℚ) :
    (checkAllArbitrage logFn s forward tol).arbitrageFree = true ↔
      (checkAllArbitrage logFn s forward tol).violations = [] ∧
        (checkAllArbitrage logFn s forward tol).summary.total = 0 := by
  simp only [checkAllArbitrage]
  simp [List.length_eq_zero, List.append_eq_nil]

theorem zipWith_abs_sub_self_sum (l : List ℚ) :
    (List.zipWith (fun a b => |a - b|) l l).sum = 0 := by
  induction l with
  | nil => simp
  | cons a l ih => simp [ih]

theorem flatten_map_singleton {α : Type} (l : List α) :
    (l.map fun b => [b]).flatten = l := by
  induction l with
  | nil => rfl
  | cons a l ih => simp [ih]

/-! ## The claims -/

/-- C1: For every message type, flags ≤ 255, seq ≤ 65535 and payload of
length < 2³², decoding the byte string produced by
`encodeFrame(type, payload, flags, seq)` succeeds and yields a header with
`length = |payload|`, the same type, flags and seq, and a payload
byte-for-byte equal to the original. -/
theorem frame_codec_roundtrip (type flags seq : Nat) (payload : List Nat)
    (htype : type ≤ 255) (hflags : flags ≤ 255) (hseq : seq ≤ 65535)
    (hlen : payload.length < 2 ^ 32) :
    decodeFrame (encodeFrame type payload flags seq) =
      some (⟨payload.length, type, flags, seq⟩, payload) :=
  decodeFrame_encodeFrame type flags seq payload htype hflags hseq hlen

/-- Witness for C1 at a concrete `SELECTED` frame. -/
theorem frame_codec_roundtrip_witness :
    decodeFrame (encodeFrame 0x30 [1, 2, 3] 8 42) =
      some (⟨3, 0x30, 8, 42⟩, [1, 2, 3]) :=
  frame_codec_roundtrip 0x30 8 42 [1, 2, 3] (by decide) (by decide)
    (by decide) (by decide)

/-- C9: If `enforceArbitrageFree(s, maxIter, tolerance)` returns before
exhausting `maxIter` correction rounds (its in-loop early return fired),
then `checkAllArbitrage` on the returned surface, without a forward price,
reports zero violations at that tolerance. -/
theorem enforce_arbitrage_idempotent (sqrtFn logFn : ℚ → ℚ) (s : Surface)
    (maxIter : Nat) (tol : ℚ)
    (hconv : enforceConverged sqrtFn logFn tol maxIter s = true) :
    (checkAllArbitrage logFn (enforceArbitrageFree sqrtFn logFn s maxIter tol)
        none tol).violations = [] ∧
      (checkAllArbitrage logFn
        (enforceArbitrageFree sqrtFn logFn s maxIter tol) none
        tol).summary.total = 0 := by
  have hfree := enforceGo_of_converged sqrtFn logFn tol maxIter s hconv
  rw [enforceArbitrageFree]
  exact (checkAllArbitrage_free_iff logFn _ none tol).1 hfree

/-- Witness for C9: a 1×1 surface is vacuously arbitrage-free, so the first
check round returns early. -/
theorem enforce_arbitrage_idempotent_witness :
    enforceConverged (fun q => q) (fun q => q) 0.001 1
        ⟨[1], [1], [0.2], 1, 1, ⟨"X", "Y", "Z", (⊤, ⊥), (⊤, ⊥), (⊤, ⊥), 0⟩⟩
      = true ∧
    (checkAllArbitrage (fun q => q)
        (enforceArbitrageFree (fun q => q) (fun q => q)
          ⟨[1], [1], [0.2], 1, 1, ⟨"X", "Y", "Z", (⊤, ⊥), (⊤, ⊥), (⊤, ⊥), 0⟩⟩
          1 0.001) none 0.001).summary.total = 0 :=
  ⟨by decide,
    (enforce_arbitrage_idempotent (fun q => q) (fun q => q)
      ⟨[1], [1], [0.2], 1, 1, ⟨"X", "Y", "Z", (⊤, ⊥), (⊤, ⊥), (⊤, ⊥), 0⟩⟩
      1 0.001 (by decide)).2⟩

/-- C10: `createSurface(x, y, z, labels)` raises exactly when `z.length`
differs from `x.length · y.length`; on success the surface has
`nx = x.length`, `ny = y.length`, and domains equal to the min/max of the
respective (nonempty) vectors at creation time. -/
theorem createSurface_spec (x y z : List ℚ) (labels : SurfaceLabels)
    (now : ℚ) :
    ((∃ e, createSurface x y z labels now = .error e) ↔
      z.length ≠ x.length * y.length) ∧
    ∀ s, createSurface x y z labels now = .ok s →
      s.nx = x.length ∧ s.ny = y.length ∧
      (x ≠ [] → IsMinMax x s.meta.xDomain) ∧
      (y ≠ [] → IsMinMax y s.meta.yDomain) ∧
      (z ≠ [] → IsMinMax z s.meta.zDomain) := by
  rw [createSurface]
  by_cases h : z.length = x.length * y.length
  · rw [if_neg (by omega)]
    refine ⟨by simp [h], ?_⟩
    intro s hs
    injection hs with hh
    subst hh
    exact ⟨rfl, rfl, fun hx => minmax_isMinMax x hx,
      fun hy => minmax_isMinMax y hy, fun hz => minmax_isMinMax z hz⟩
  · rw [if_pos (by omega)]
    exact ⟨by simp [h], by intro s hs; exact absurd hs (by simp)⟩

/-- Witness for C10 at concrete vectors. -/
theorem createSurface_spec_witness :
    (∃ s, createSurface [1, 2] [3] [5, 6] ⟨none, none, none⟩ 0 = .ok s) ∧
    IsMinMax [1, 2] (minmax [1, 2]) := by
  have h := createSurface_spec [1, 2] [3] [5, 6] ⟨none, none, none⟩ 0
  refine ⟨⟨_, rfl⟩, ?_⟩
  have h2 := (h.2 _ rfl).2.2.1 (by simp)
  exact h2

/-- C4 counterexample: At the surface `x = [0.01, 2]`, `y = [1]`,
`z = [1, 0]` the single calendar violation has magnitude exactly `0.01`, and
the code classifies it `moderate` (its severity ternary uses strict `>`),
while the claim's boundary `severe when ≥ 0.01` demands `severe`. -/
theorem calendar_severity_counterexample :
    (checkCalendarArbitrage
        ⟨[0.01, 2], [1], [1, 0], 2, 1,
          ⟨"X", "Y", "Z", (⊤, ⊥), (⊤, ⊥), (⊤, ⊥), 0⟩⟩ 0.001).map
        (fun v => (v.violation, v.severity)) =
      [((0.01 : ℚ), Severity.moderate)] ∧
    (0.01 : ℚ) ≥ 0.01 ∧ Severity.moderate ≠ Severity.severe := by
  refine ⟨?_, by norm_num, by decide⟩
  simp [checkCalendarArbitrage, calendarSeverity, List.range_succ]
  norm_num [List.filterMap_cons]

/-- C4 amended: For every surface (x = expiries, y = strikes) and
tolerance: a calendar violation is reported exactly when
`w(T₂) < w(T₁) - tolerance` with `w = σ²·T`, with magnitude `w(T₁) - w(T₂)`
and severity `severe` when the magnitude exceeds `0.01`, `moderate` when it
exceeds `0.005` but is at most `0.01`, and `minor` when it is at most
`0.005` (the code's boundaries are strict, unlike the original claim's
`< 0.005 / < 0.01 / ≥ 0.01`).  In particular a constant `σ = 0.2` surface
with strictly increasing expiries yields no violations, and
`σ(T=1) = 0.4, σ(T=2) = 0.1` yields a violation at that strike. -/
theorem calendar_arbitrage_characterization (s : Surface) (tol : ℚ)
    (hx : s.x.length = s.nx) (hy : s.y.length = s.ny)
    (hz : s.z.length = s.nx * s.ny) :
    (∀ v, v ∈ checkCalendarArbitrage s tol ↔
      ∃ j < s.ny, ∃ i < s.nx - 1,
        calendarW s (i + 1) j < calendarW s i j - tol ∧
        v = ⟨.calendar,
          calendarSeverity (calendarW s i j - calendarW s (i + 1) j),
          ⟨s.x.getD i 0, some (s.x.getD (i + 1) 0), s.y.getD j 0⟩,
          calendarW s i j - calendarW s (i + 1) j⟩) ∧
    (∀ m : ℚ, (calendarSeverity m = .severe ↔ 0.01 < m) ∧
      (calendarSeverity m = .moderate ↔ 0.005 < m ∧ m ≤ 0.01) ∧
      (calendarSeverity m = .minor ↔ m ≤ 0.005)) ∧
    (0 ≤ tol → (∀ k, k < s.nx * s.ny → s.z.getD k 0 = 0.2) →
      s.x.Pairwise (· < ·) → checkCalendarArbitrage s tol = []) ∧
    (∀ j, j < s.ny → s.x.getD 0 0 = 1 → s.x.getD 1 0 = 2 → 2 ≤ s.nx →
      s.z.getD j 0 = 0.4 → s.z.getD (s.ny + j) 0 = 0.1 → tol < 0.14 →
      ∃ v ∈ checkCalendarArbitrage s tol,
        v.location = ⟨1, some 2, s.y.getD j 0⟩) := by
  have hchar : ∀ v, v ∈ checkCalendarArbitrage s tol ↔
      ∃ j < s.ny, ∃ i < s.nx - 1,
        calendarW s (i + 1) j < calendarW s i j - tol ∧
        v = ⟨.calendar,
          calendarSeverity (calendarW s i j - calendarW s (i + 1) j),
          ⟨s.x.getD i 0, some (s.x.getD (i + 1) 0), s.y.getD j 0⟩,
          calendarW s i j - calendarW s (i + 1) j⟩ := by
    intro v
    rw [checkCalendarArbitrage]
    simp only [List.mem_flatMap, List.mem_filterMap, List.mem_range]
    constructor
    · rintro ⟨j, hj, i, hi, hsome⟩
      refine ⟨j, hj, i, hi, ?_⟩
      split_ifs at hsome with hcond
      injection hsome with hv
      exact ⟨hcond, hv.symm⟩
    · rintro ⟨j, hj, i, hi, hcond, rfl⟩
      refine ⟨j, hj, i, hi, ?_⟩
      split_ifs with h
      · rfl
      · exact absurd hcond h
  have hsev : ∀ m : ℚ, (calendarSeverity m = .severe ↔ 0.01 < m) ∧
      (calendarSeverity m = .moderate ↔ 0.005 < m ∧ m ≤ 0.01) ∧
      (calendarSeverity m = .minor ↔ m ≤ 0.005) := by
    intro m
    unfold calendarSeverity
    split_ifs with h1 h2
    · refine ⟨by simp [h1], ?_, ?_⟩
      · simp only [reduceCtorEq, false_iff]
        rintro ⟨-, hc⟩
        exact absurd h1 (not_lt.2 hc)
      · simp only [reduceCtorEq, false_iff]
        intro hc
        exact absurd h1 (not_lt.2 (by linarith))
    · refine ⟨?_, ?_, ?_⟩
      · simp only [reduceCtorEq, false_iff]
        exact h1
      · simp only [true_iff]
        exact ⟨h2, not_lt.1 h1⟩
      · simp only [reduceCtorEq, false_iff]
        exact not_le.2 h2
    · refine ⟨?_, ?_, ?_⟩
      · simp only [reduceCtorEq, false_iff]
        exact h1
      · simp only [reduceCtorEq, false_iff]
        rintro ⟨hc, -⟩
        exact h2 hc
      · simp only [true_iff]
        exact not_lt.1 h2
  refine ⟨hchar, hsev, ?_, ?_⟩
  · intro htol hall hsort
    rw [List.eq_nil_iff_forall_not_mem]
    intro v hv
    obtain ⟨j, hj, i, hi, hcond, -⟩ := (hchar v).1 hv
    have e1 : i * s.ny + j < (i + 1) * s.ny := by
      rw [Nat.succ_mul]
      exact Nat.add_lt_add_left hj _
    have e1' : (i + 1) * s.ny + j < (i + 2) * s.ny := by
      rw [show i + 2 = (i + 1) + 1 by omega, Nat.succ_mul (i + 1)]
      exact Nat.add_lt_add_left hj _
    have e2 : (i + 1) * s.ny ≤ s.nx * s.ny :=
      Nat.mul_le_mul_right _ (by omega)
    have e2' : (i + 2) * s.ny ≤ s.nx * s.ny :=
      Nat.mul_le_mul_right _ (by omega)
    have hz1 : s.z.getD (i * s.ny + j) 0 = 0.2 :=
      hall _ (lt_of_lt_of_le e1 e2)
    have hz2 : s.z.getD ((i + 1) * s.ny + j) 0 = 0.2 :=
      hall _ (lt_of_lt_of_le e1' e2')
    have hT : s.x.getD i 0 < s.x.getD (i + 1) 0 := by
      have hii : i + 1 < s.x.length := by omega
      have := List.pairwise_iff_getElem.1 hsort i (i + 1) (by omega) hii
        (by omega)
      rwa [List.getD_eq_getElem s.x 0 (by omega),
        List.getD_eq_getElem s.x 0 hii]
    rw [calendarW, calendarW, hz1, hz2] at hcond
    nlinarith [hcond, hT, htol]
  · intro j hj h0 h1 hnx hz0 hz1 htol
    have hcond : calendarW s (0 + 1) j < calendarW s 0 j - tol := by
      rw [calendarW, calendarW]
      simp only [Nat.zero_add, Nat.zero_mul, Nat.one_mul, Nat.zero_add]
      rw [h0, h1, hz0, hz1]
      linarith
    refine ⟨_, (hchar _).2 ⟨j, hj, 0, by omega, hcond, rfl⟩, ?_⟩
    simp only [Nat.zero_add]
    rw [h0, h1]

/-- Witness for C4 (amended) at the `σ(1)=0.4, σ(2)=0.1` surface. -/
theorem calendar_arbitrage_witness :
    ([0.4, 0.1] : List ℚ).length = 2 * 1 ∧
    ∃ v ∈ checkCalendarArbitrage
        ⟨[1, 2], [7], [0.4, 0.1], 2, 1,
          ⟨"X", "Y", "Z", (⊤, ⊥), (⊤, ⊥), (⊤, ⊥), 0⟩⟩ 0.001,
      v.location = ⟨1, some 2, 7⟩ := by
  refine ⟨rfl, ?_⟩
  have h := (calendar_arbitrage_characterization
    ⟨[1, 2], [7], [0.4, 0.1], 2, 1,
      ⟨"X", "Y", "Z", (⊤, ⊥), (⊤, ⊥), (⊤, ⊥), 0⟩⟩ 0.001
    rfl rfl rfl).2.2.2 0 (by decide) rfl rfl (by decide) rfl rfl (by norm_num)
  simpa using h

/-- C6: With `azimuth = 0`, `elevation = 0` and `aspectRatio = 1`,
`project3D` maps `(x, y, z)` to `(centerX + x·zoom, centerY - z·zoom)`; and
for `azimuth = elevation = 0` (any aspect ratio) the origin maps to
`(centerX, centerY)`. -/
theorem projection_geometry (p : Projection ℝ) (pt : Point3D ℝ)
    (haz : p.azimuth = 0) (hel : p.elevation = 0) :
    (p.aspectRatio = 1 →
      (project3D pt p).x = p.centerX + pt.x * p.zoom ∧
      (project3D pt p).y = p.centerY - pt.z * p.zoom) ∧
    (project3D ⟨0, 0, 0⟩ p).x = p.centerX ∧
    (project3D ⟨0, 0, 0⟩ p).y = p.centerY := by
  have hteq : ∀ q : Point3D ℝ, (project3D q p).x =
      p.centerX + q.x * p.zoom ∧
      (project3D q p).y = p.centerY - q.z * p.zoom * p.aspectRatio := by
    intro q
    rw [project3D, haz, hel]
    simp [DEG2RAD]
  refine ⟨fun hasp => ?_, ?_, ?_⟩
  · obtain ⟨h1, h2⟩ := hteq pt
    rw [hasp] at h2
    exact ⟨h1, by rw [h2]; ring⟩
  · rw [(hteq ⟨0, 0, 0⟩).1]
    norm_num
  · rw [(hteq ⟨0, 0, 0⟩).2]
    norm_num

/-- Witness for C6 at `p = (az 0, el 0, zoom 5, center (10, 20), aspect 1)`
and the point `(2, 3, 4)`. -/
theorem projection_geometry_witness :
    (project3D ⟨2, 3, 4⟩ ⟨0, 0, 5, 10, 20, 1⟩).x = 10 + 2 * 5 ∧
    (project3D ⟨2, 3, 4⟩ ⟨0, 0, 5, 10, 20, 1⟩).y = 20 - 4 * 5 :=
  (projection_geometry ⟨0, 0, 5, 10, 20, 1⟩ ⟨2, 3, 4⟩ rfl rfl).1 rfl

/-- C7 counterexample: For `azimuth = 0` (a valid camera state) and
`deltaAzimuth = -721`, the code computes `(0 - 721 + 360) % 360 = -1` with
the JavaScript remainder, so the new azimuth is `-1`: it is neither the
mathematical `(azimuth + Δaz) mod 360 = 359` nor inside `[0, 360)`. -/
theorem rotate_azimuth_counterexample :
    (rotateProjection (⟨0, 0, 5, 0, 0, 0.5⟩ : Projection ℚ) (-721) 0).azimuth
        = -1 ∧
    ¬ (0 ≤ (rotateProjection (⟨0, 0, 5, 0, 0, 0.5⟩ : Projection ℚ)
        (-721) 0).azimuth) ∧
    (0 : ℚ) ≤ 0 ∧ (0 : ℚ) < 360 := by
  have h : (rotateProjection (⟨0, 0, 5, 0, 0, 0.5⟩ : Projection ℚ)
      (-721) 0).azimuth = -1 := by
    show jsRem (0 + -721 + 360) 360 = -1
    have hceil : ⌈(-(361 / 360) : ℚ)⌉ = -1 :=
      Int.ceil_eq_iff.mpr ⟨by norm_num, by norm_num⟩
    rw [jsRem, jsTrunc]
    norm_num [hceil]
  refine ⟨h, by rw [h]; norm_num, le_rfl, by norm_num⟩

/-- C7 amended: For a camera state with `azimuth ∈ [0, 360)`,
`elevation ∈ [-89, 89]`, `zoom > 0`: whenever `deltaAzimuth ≥ -360` the new
azimuth equals `(azimuth + Δaz) mod 360` and lies in `[0, 360)` (for
`Δaz < -360` the JavaScript remainder can go negative); the elevation is
`elevation + Δel` clamped to `[-89, 89]`; rotating by `360°` leaves the
azimuth unchanged; and `zoomProjection` yields `max(1, zoom · f) > 0`. -/
theorem rotate_zoom_spec {K : Type} [LinearOrderedField K] [FloorRing K]
    (p : Projection K) (dAz dEl f : K)
    (haz0 : 0 ≤ p.azimuth) (haz1 : p.azimuth < 360)
    (hel0 : -89 ≤ p.elevation) (hel1 : p.elevation ≤ 89) (hz : 0 < p.zoom) :
    ((-360 : K) ≤ dAz →
      (rotateProjection p dAz dEl).azimuth =
        p.azimuth + dAz - 360 * (⌊(p.azimuth + dAz) / 360⌋ : K) ∧
      0 ≤ (rotateProjection p dAz dEl).azimuth ∧
      (rotateProjection p dAz dEl).azimuth < 360) ∧
    (rotateProjection p dAz dEl).elevation =
      max (-89) (min 89 (p.elevation + dEl)) ∧
    -89 ≤ (rotateProjection p dAz dEl).elevation ∧
    (rotateProjection p dAz dEl).elevation ≤ 89 ∧
    (rotateProjection p 360 0).azimuth = p.azimuth ∧
    (zoomProjection p f).zoom = max 1 (p.zoom * f) ∧
    0 < (zoomProjection p f).zoom := by
  have hshift : ∀ a : K, 0 ≤ a + 360 →
      jsRem (a + 360) 360 = a - 360 * (⌊a / 360⌋ : K) := by
    intro a ha
    obtain ⟨heq, -, -⟩ := jsRem_nonneg_eq (a + 360) ha
    rw [heq]
    have hdiv : (a + 360) / 360 = a / 360 + 1 := by
      field_simp
    rw [hdiv, show (a / 360 + 1 : K) = a / 360 + (1 : ℤ) by norm_num,
      Int.floor_add_int]
    push_cast
    ring
  refine ⟨fun hdAz => ?_, rfl, ?_, ?_, ?_, rfl, ?_⟩
  · have ha : 0 ≤ p.azimuth + dAz + 360 := by linarith
    obtain ⟨-, hge, hlt⟩ := jsRem_nonneg_eq (p.azimuth + dAz + 360) ha
    have heq : (rotateProjection p dAz dEl).azimuth =
        p.azimuth + dAz - 360 * (⌊(p.azimuth + dAz) / 360⌋ : K) := by
      show jsRem (p.azimuth + dAz + 360) 360 = _
      exact hshift (p.azimuth + dAz) ha
    exact ⟨heq, hge, hlt⟩
  · exact le_max_left _ _
  · exact max_le (by norm_num) (min_le_left _ _)
  · show jsRem (p.azimuth + 360 + 360) 360 = p.azimuth
    rw [hshift (p.azimuth + 360) (by linarith)]
    have hdiv : (p.azimuth + 360) / 360 = p.azimuth / 360 + 1 := by
      field_simp
    rw [hdiv, show (p.azimuth / 360 + 1 : K) = p.azimuth / 360 + (1 : ℤ)
        by norm_num, Int.floor_add_int]
    have hfl : ⌊p.azimuth / 360⌋ = 0 := by
      rw [Int.floor_eq_zero_iff]
      constructor
      · exact div_nonneg haz0 (by norm_num)
      · rw [div_lt_one (by norm_num : (0 : K) < 360)]
        exact haz1
    rw [hfl]
    push_cast
    ring
  · exact lt_of_lt_of_le zero_lt_one (le_max_left _ _)

/-- Witness for C7 (amended) over `ℚ` at `azimuth = 10`, `Δaz = 365`. -/
theorem rotate_zoom_spec_witness :
    (rotateProjection (⟨10, 0, 5, 0, 0, 0.5⟩ : Projection ℚ) 365 3).azimuth
        = 15 ∧
    (rotateProjection (⟨10, 0, 5, 0, 0, 0.5⟩ : Projection ℚ) 360 0).azimuth
        = 10 := by
  have h := rotate_zoom_spec (⟨10, 0, 5, 0, 0, 0.5⟩ : Projection ℚ) 365 3 2
    (by norm_num) (by norm_num) (by norm_num) (by norm_num) (by norm_num)
  obtain ⟨hmain, -, -, -, h360, -, -⟩ := h
  obtain ⟨heq, -, -⟩ := hmain (by norm_num)
  refine ⟨?_, h360⟩
  rw [heq]
  have hfl : ⌊((10 : ℚ) + 365) / 360⌋ = 1 := by
    rw [show ((10 : ℚ) + 365) / 360 = 375 / 360 by norm_num]
    exact Int.floor_eq_iff.mpr ⟨by norm_num, by norm_num⟩
  show (10 : ℚ) + 365 - 360 * (⌊((10 : ℚ) + 365) / 360⌋ : ℚ) = 15
  rw [hfl]
  norm_num

/-- C8: On a surface with `nx, ny ≥ 2` and strictly increasing axes,
every query is safe: the binary search lands in `[0, n-2]`, so the clamp in
`bilinearInterpolate` is the identity and all four corner reads
`x0·ny + y0 … (x0+1)·ny + (y0+1)` stay inside `[0, nx·ny)`; queries below
the domain use cell `0` and queries above it use cell `nx-2` / `ny-2`. -/
theorem bilinear_clamping (s : Surface) (qx qy : ℚ)
    (hx : s.x.length = s.nx) (hy : s.y.length = s.ny)
    (hz : s.z.length = s.nx * s.ny)
    (hnx : 2 ≤ s.nx) (hny : 2 ≤ s.ny)
    (hsx : s.x.Pairwise (· < ·)) (hsy : s.y.Pairwise (· < ·)) :
    (0 ≤ findIndex s.x qx ∧ findIndex s.x qx ≤ (s.nx : ℤ) - 2) ∧
    (0 ≤ findIndex s.y qy ∧ findIndex s.y qy ≤ (s.ny : ℤ) - 2) ∧
    bilinearCell s qx qy = (findIndex s.x qx, findIndex s.y qy) ∧
    (qx < s.x.getD 0 0 → (bilinearCell s qx qy).1 = 0) ∧
    (s.x.getD (s.nx - 1) 0 < qx →
      (bilinearCell s qx qy).1 = (s.nx : ℤ) - 2) ∧
    (qy < s.y.getD 0 0 → (bilinearCell s qx qy).2 = 0) ∧
    (s.y.getD (s.ny - 1) 0 < qy →
      (bilinearCell s qx qy).2 = (s.ny : ℤ) - 2) ∧
    0 ≤ (bilinearCell s qx qy).1 * s.ny + (bilinearCell s qx qy).2 ∧
    ((bilinearCell s qx qy).1 + 1) * s.ny + ((bilinearCell s qx qy).2 + 1) <
      ((s.nx : ℤ) * s.ny) := by
  obtain ⟨hxb, hxlow, hxhigh⟩ := findIndex_spec s.x qx (by omega) hsx
  obtain ⟨hyb, hylow, hyhigh⟩ := findIndex_spec s.y qy (by omega) hsy
  rw [hx] at hxb hxhigh
  rw [hy] at hyb hyhigh
  have hcell : bilinearCell s qx qy = (findIndex s.x qx, findIndex s.y qy)
      := by
    rw [bilinearCell, min_eq_left hxb.2, min_eq_left hyb.2,
      max_eq_right hxb.1, max_eq_right hyb.1]
  refine ⟨hxb, hyb, hcell, ?_, ?_, ?_, ?_, ?_, ?_⟩
  · intro h
    rw [hcell]
    exact hxlow h
  · intro h
    rw [hcell]
    exact hxhigh h
  · intro h
    rw [hcell]
    exact hylow h
  · intro h
    rw [hcell]
    exact hyhigh h
  · rw [hcell]
    have : (0 : ℤ) ≤ (s.ny : ℤ) := by positivity
    nlinarith [hxb.1, hyb.1]
  · rw [hcell]
    have h1 : findIndex s.x qx + 1 ≤ (s.nx : ℤ) - 1 := by omega
    have h2 : findIndex s.y qy + 1 ≤ (s.ny : ℤ) - 1 := by omega
    have h3 : (findIndex s.x qx + 1) * (s.ny : ℤ) ≤
        ((s.nx : ℤ) - 1) * (s.ny : ℤ) := by
      apply mul_le_mul_of_nonneg_right h1
      positivity
    nlinarith [h2, h3]

/-- Witness for C8 on a 2×2 grid with a query above both axis ranges. -/
theorem bilinear_clamping_witness :
    bilinearCell
        ⟨[0, 1], [0, 1], [5, 6, 7, 8], 2, 2,
          ⟨"X", "Y", "Z", (⊤, ⊥), (⊤, ⊥), (⊤, ⊥), 0⟩⟩ 9 (-3) =
      (findIndex [0, 1] 9, findIndex [0, 1] (-3)) := by
  have h := bilinear_clamping
    ⟨[0, 1], [0, 1], [5, 6, 7, 8], 2, 2,
      ⟨"X", "Y", "Z", (⊤, ⊥), (⊤, ⊥), (⊤, ⊥), 0⟩⟩ 9 (-3)
    rfl rfl rfl le_rfl le_rfl
    (by norm_num) (by norm_num)
  exact h.2.2.1

/-- C5: For a non-empty slope field, `riskScore` equals
`0.4·min(1, maxSlope/2) + 0.3·min(1, √slopeVariance/0.5) +
0.3·min(1, |termStructureSteepness|/0.5)`, lies in `[0, 1]`, and vanishes
on an identically-zero field. -/
theorem risk_score_spec (slope : SlopeData) (nx ny : Nat)
    (hn : slope.magnitude ≠ []) :
    (computeRiskMetrics slope nx ny).riskScore =
      0.4 * min 1 ((computeRiskMetrics slope nx ny).maxSlope / 2) +
      0.3 * min 1
        (Real.sqrt (computeRiskMetrics slope nx ny).slopeVariance / 0.5) +
      0.3 * min 1
        (|(computeRiskMetrics slope nx ny).termStructureSteepness| / 0.5) ∧
    0 ≤ (computeRiskMetrics slope nx ny).riskScore ∧
    (computeRiskMetrics slope nx ny).riskScore ≤ 1 ∧
    ((∀ v ∈ slope.magnitude, v = 0) → (∀ v ∈ slope.dz_dx, v = 0) →
      (∀ v ∈ slope.dz_dy, v = 0) →
      (computeRiskMetrics slope nx ny).riskScore = 0) := by
  simp only [computeRiskMetrics]
  set n := slope.magnitude.length with hnlen
  set mag := fun i => slope.magnitude.getD i 0 with hmag
  set dzDx := fun i => slope.dz_dx.getD i 0 with hdzdx
  set maxSlope := ((List.range n).map mag).foldl max 0 with hmax
  set sumSlopeSq := ((List.range n).map (fun i => mag i * mag i)).sum
    with hsumsq
  set sumSlope := ((List.range n).map mag).sum with hsum
  set sumTermSlope := ((List.range n).map dzDx).sum with hterm
  have hmax0 : 0 ≤ maxSlope := foldl_max_nonneg _ 0 le_rfl
  have ha : 0 ≤ min 1 (maxSlope / 2) ∧ min 1 (maxSlope / 2) ≤ 1 :=
    ⟨le_min zero_le_one (by positivity), min_le_left _ _⟩
  have hb : 0 ≤ min 1 (Real.sqrt (sumSlopeSq / n -
        sumSlope / n * (sumSlope / n)) / 0.5) ∧
      min 1 (Real.sqrt (sumSlopeSq / n - sumSlope / n * (sumSlope / n)) /
        0.5) ≤ 1 :=
    ⟨le_min zero_le_one (by positivity), min_le_left _ _⟩
  have hc : 0 ≤ min 1 (|sumTermSlope / n| / 0.5) ∧
      min 1 (|sumTermSlope / n| / 0.5) ≤ 1 :=
    ⟨le_min zero_le_one (by positivity), min_le_left _ _⟩
  refine ⟨by ring, by nlinarith [ha.1, hb.1, hc.1], by
    nlinarith [ha.2, hb.2, hc.2, ha.1, hb.1, hc.1], ?_⟩
  intro hmz hxz hyz
  have hmagz : ∀ x ∈ (List.range n).map mag, x = 0 := by
    intro x hx
    obtain ⟨i, hi, rfl⟩ := List.mem_map.1 hx
    rw [List.mem_range] at hi
    show slope.magnitude.getD i 0 = 0
    rw [List.getD_eq_getElem slope.magnitude 0 hi]
    exact hmz _ (List.getElem_mem hi)
  have hmaxz : maxSlope = 0 :=
    foldl_max_zero_of_all_zero _ hmagz 0 rfl
  have hsumz : sumSlope = 0 := List.sum_eq_zero hmagz
  have hsumsqz : sumSlopeSq = 0 := by
    apply List.sum_eq_zero
    intro x hx
    obtain ⟨i, hi, rfl⟩ := List.mem_map.1 hx
    rw [List.mem_range] at hi
    have hmi : mag i = 0 := by
      show slope.magnitude.getD i 0 = 0
      rw [List.getD_eq_getElem slope.magnitude 0 hi]
      exact hmz _ (List.getElem_mem hi)
    rw [hmi, mul_zero]
  have htermz : sumTermSlope = 0 := by
    apply List.sum_eq_zero
    intro x hx
    obtain ⟨i, hi, rfl⟩ := List.mem_map.1 hx
    show slope.dz_dx.getD i 0 = 0
    rcases Nat.lt_or_ge i slope.dz_dx.length with hlt | hge
    · rw [List.getD_eq_getElem slope.dz_dx 0 hlt]
      exact hxz _ (List.getElem_mem hlt)
    · exact List.getD_eq_default _ _ hge
  rw [hmaxz, hsumz, hsumsqz, htermz]
  norm_num

/-- Witness for C5 at the one-cell zero slope field. -/
theorem risk_score_spec_witness :
    ([0] : List ℝ) ≠ [] ∧
    (computeRiskMetrics ⟨[0], [0], [0], [0]⟩ 1 1).riskScore = 0 :=
  ⟨by simp,
    (risk_score_spec ⟨[0], [0], [0], [0]⟩ 1 1 (by simp)).2.2.2
      (by simp) (by simp) (by simp)⟩

/-- Witness for C2: two concrete frames fed one byte per `append`. -/
theorem frameReader_reassembles_witness :
    readerFeed []
        ((encodeAll [⟨0x30, 0, 1, [123]⟩, ⟨0x20, 8, 2, []⟩]).map
          fun b => [b]) =
      (([⟨0x30, 0, 1, [123]⟩, ⟨0x20, 8, 2, []⟩] : List FrameInput).map
        FrameInput.asFrame, []) :=
  (frameReader_reassembles_any_chunking
    [⟨0x30, 0, 1, [123]⟩, ⟨0x20, 8, 2, []⟩] _
    (by
      intro g hg
      rcases List.mem_cons.1 hg with rfl | hg
      · exact ⟨by norm_num, by norm_num, by norm_num, by norm_num⟩
      · rcases List.mem_cons.1 hg with rfl | hg
        · exact ⟨by norm_num, by norm_num, by norm_num, by norm_num⟩
        · cases hg)
    (flatten_map_singleton _)).1

/-- C3: With the metadata JSON codec and the 4-byte IEEE-754 binary32
codec abstracted as round-tripping parameters (round trip on the surface's
values is what "finite and f32-representable" means), deserializing the
payload written by `serializeSurface` yields identical `nx`, `ny` and
metadata (labels included), recovers `x`, `y`, `z` through the alignment
padding and section offsets, and the summed absolute deviation is `0`,
below `10⁻⁶·nx·ny`. -/
theorem surface_codec_roundtrip (metaEnc : SurfaceMeta → List Nat)
    (metaDec : List Nat → SurfaceMeta) (f32enc : ℚ → List Nat)
    (f32dec : List Nat → ℚ) (s : Surface)
    (h1x : 1 ≤ s.nx) (h1y : 1 ≤ s.ny)
    (hx : s.x.length = s.nx) (hy : s.y.length = s.ny)
    (hz : s.z.length = s.nx * s.ny)
    (hnx : s.nx < 2 ^ 32) (hny : s.ny < 2 ^ 32)
    (hmeta32 : (metaEnc s.meta).length < 2 ^ 32)
    (hmetart : metaDec (metaEnc s.meta) = s.meta)
    (hlen4 : ∀ q, (f32enc q).length = 4)
    (hrtx : ∀ q ∈ s.x, f32dec (f32enc q) = q)
    (hrty : ∀ q ∈ s.y, f32dec (f32enc q) = q)
    (hrtz : ∀ q ∈ s.z, f32dec (f32enc q) = q) :
    (deserializeSurface metaDec f32dec
        (serializeSurfaceBody metaEnc f32enc s)).nx = s.nx ∧
    (deserializeSurface metaDec f32dec
        (serializeSurfaceBody metaEnc f32enc s)).ny = s.ny ∧
    (deserializeSurface metaDec f32dec
        (serializeSurfaceBody metaEnc f32enc s)).meta = s.meta ∧
    deserializeSurface metaDec f32dec
        (serializeSurfaceBody metaEnc f32enc s) = s ∧
    (List.zipWith (fun a b => |a - b|)
        (deserializeSurface metaDec f32dec
          (serializeSurfaceBody metaEnc f32enc s)).x s.x).sum +
      (List.zipWith (fun a b => |a - b|)
        (deserializeSurface metaDec f32dec
          (serializeSurfaceBody metaEnc f32enc s)).y s.y).sum +
      (List.zipWith (fun a b => |a - b|)
        (deserializeSurface metaDec f32dec
          (serializeSurfaceBody metaEnc f32enc s)).z s.z).sum <
      (1e-6 : ℚ) * s.nx * s.ny := by
  have h := deserializeSurface_roundtrip metaEnc metaDec f32enc f32dec s
    hx hy hz hnx hny hmeta32 hmetart hlen4 hrtx hrty hrtz
  refine ⟨by rw [h], by rw [h], by rw [h], h, ?_⟩
  rw [h, zipWith_abs_sub_self_sum, zipWith_abs_sub_self_sum,
    zipWith_abs_sub_self_sum]
  have hnx' : (1 : ℚ) ≤ (s.nx : ℚ) := by exact_mod_cast h1x
  have hny' : (1 : ℚ) ≤ (s.ny : ℚ) := by exact_mod_cast h1y
  nlinarith [hnx', hny']

/-- Witness for C3: the 1×1 zero surface under codecs that round-trip its
values. -/
theorem surface_codec_roundtrip_witness :
    deserializeSurface
        (fun _ => ⟨"X", "Y", "Z", (⊤, ⊥), (⊤, ⊥), (⊤, ⊥), 0⟩)
        (fun _ => (0 : ℚ))
        (serializeSurfaceBody (fun _ => []) (fun _ => [0, 0, 0, 0])
          ⟨[0], [0], [0], 1, 1, ⟨"X", "Y", "Z", (⊤, ⊥), (⊤, ⊥), (⊤, ⊥), 0⟩⟩)
      = ⟨[0], [0], [0], 1, 1, ⟨"X", "Y", "Z", (⊤, ⊥), (⊤, ⊥), (⊤, ⊥), 0⟩⟩ :=
  (surface_codec_roundtrip (fun _ => [])
    (fun _ => ⟨"X", "Y", "Z", (⊤, ⊥), (⊤, ⊥), (⊤, ⊥), 0⟩)
    (fun _ => [0, 0, 0, 0]) (fun _ => (0 : ℚ))
    ⟨[0], [0], [0], 1, 1, ⟨"X", "Y", "Z", (⊤, ⊥), (⊤, ⊥), (⊤, ⊥), 0⟩⟩
    le_rfl le_rfl rfl rfl rfl
    (by norm_num) (by norm_num) (by norm_num) rfl (fun q => rfl)
    (by intro q hq; simp at hq; rw [hq]) (by intro q hq; simp at hq; rw [hq])
    (by intro q hq; simp at hq; rw [hq])).2.2.2.1

end Marigraph
